import Mathlib

set_option maxHeartbeats 1000000

namespace AnEditor

/-!
Shallow embedding of the text-editing engine of `an_editor`
(`src/line_gap_buffer.rs` and `src/view_state.rs`).

Conventions:
* A Rust `Vec` used as a stack with `push`/`pop` at the back is modelled as a
  Lean `List` in the same order (`push` appends at the end, `pop` removes the
  last element), except for the four undo/redo stacks of `ViewState`, which are
  modelled with the list head as the stack top (push = cons); only their
  push/pop/len/last operations are ever used, so the two representations agree.
* A Rust `String` is modelled as `List Char` (a string is a sequence of chars).
* `usize` is `Nat`; Rust debug builds panic on underflow, and every theorem
  carries the hypotheses under which the source asserts hold, so truncated
  `Nat` subtraction and total `getD` indexing agree with the source there.
* The Rust field `end` is called `end_` (Lean keyword).
-/

/-- A line record of the gap buffer (`Line<T>` in `line_gap_buffer.rs`). -/
structure Line (T : Type) where
  start : Nat
  end_ : Nat
  data : T
deriving DecidableEq

instance {T : Type} [Inhabited T] : Inhabited (Line T) :=
  ⟨{ start := 0, end_ := 0, data := default }⟩

/-- The dual gap buffer (`LineGapBuffer<T>` in `line_gap_buffer.rs`):
characters and line records, each split in a left part and a reversed right
part around a movable gap. -/
structure LineGapBuffer (T : Type) where
  chars_left : List Char
  chars_right : List Char
  lines_left : List (Line T)
  lines_right : List (Line T)
deriving DecidableEq

namespace LineGapBuffer

variable {T : Type} [Inhabited T]

/-- `LineGapBuffer::new` (Rust `T: Default` becomes `Inhabited T`). -/
def new : LineGapBuffer T :=
  { chars_left := [], chars_right := [],
    lines_left := [{ start := 0, end_ := 0, data := default }],
    lines_right := [] }

/-- `LineGapBuffer::len`. -/
def len (b : LineGapBuffer T) : Nat :=
  b.chars_left.length + b.chars_right.length

/-- `LineGapBuffer::num_lines`. -/
def num_lines (b : LineGapBuffer T) : Nat :=
  b.lines_left.length + b.lines_right.length

/-- `LineGapBuffer::get_char`. -/
def get_char (b : LineGapBuffer T) (pos : Nat) : Char :=
  if pos < b.chars_left.length then b.chars_left.getD pos default
  else b.chars_right.getD (b.len - 1 - pos) default

/-- `LineGapBuffer::slice_string` (the collected `String` as a char list). -/
def slice_string (b : LineGapBuffer T) (start end_ : Nat) : List Char :=
  (List.range' start (end_ - start)).map b.get_char

/-- `LineGapBuffer::get_line` (returning the line record by value). -/
def get_line (b : LineGapBuffer T) (line_no : Nat) : Line T :=
  if line_no < b.lines_left.length then
    b.lines_left.getD line_no default
  else
    let line := b.lines_right.getD (b.num_lines - 1 - line_no) default
    { start := b.len - line.start, end_ := b.len - line.end_, data := line.data }

/-- The binary-search loop of `LineGapBuffer::find_line`. -/
def find_line_go (b : LineGapBuffer T) (pos left right : Nat) : Nat :=
  if right - left > 1 then
    let mid := left + (right - left) / 2
    if pos < (b.get_line mid).start then b.find_line_go pos left mid
    else b.find_line_go pos mid right
  else left
termination_by right - left
decreasing_by
  · have h2 : (right - left) / 2 < right - left := Nat.div_lt_self (by omega) (by omega)
    omega
  · have h1 : 1 ≤ (right - left) / 2 := (Nat.le_div_iff_mul_le (by omega)).mpr (by omega)
    have h2 : (right - left) / 2 < right - left := Nat.div_lt_self (by omega) (by omega)
    omega

/-- `LineGapBuffer::find_line`. -/
def find_line (b : LineGapBuffer T) (pos : Nat) : Nat :=
  b.find_line_go pos 0 b.num_lines

end LineGapBuffer

/-- One `while` loop moving elements from the back of `l` to the back of `r`
(`f` is the identity for characters, the start/end flip for line records). -/
def gapShiftLeft {α : Type} (f : α → α) (pos : Nat) (l r : List α) :
    List α × List α :=
  if hl : l.length > pos then
    match h : l.getLast? with
    | some c => gapShiftLeft f pos l.dropLast (r ++ [f c])
    | none => (l, r)
  else (l, r)
termination_by l.length
decreasing_by
  have hne : l ≠ [] := by
    intro he
    subst he
    simp at h
  have := List.length_pos.mpr hne
  simp only [List.length_dropLast]
  omega

/-- The companion `while` loop moving elements from the back of `r` to the
back of `l`. -/
def gapShiftRight {α : Type} (f : α → α) (pos : Nat) (l r : List α) :
    List α × List α :=
  if hl : l.length < pos then
    match h : r.getLast? with
    | some c => gapShiftRight f pos (l ++ [f c]) r.dropLast
    | none => (l, r)
  else (l, r)
termination_by r.length
decreasing_by
  have hne : r ≠ [] := by
    intro he
    subst he
    simp at h
  have := List.length_pos.mpr hne
  simp only [List.length_dropLast]
  omega

namespace LineGapBuffer

variable {T : Type} [Inhabited T]

/-- `LineGapBuffer::move_char_gap`. -/
def move_char_gap (b : LineGapBuffer T) (pos : Nat) : LineGapBuffer T :=
  let p1 := gapShiftLeft id pos b.chars_left b.chars_right
  let p2 := gapShiftRight id pos p1.1 p1.2
  { b with chars_left := p2.1, chars_right := p2.2 }

/-- `LineGapBuffer::move_line_gap`; `n` is the length at entry, used to flip
`start`/`end` of every record crossing the gap. -/
def move_line_gap (b : LineGapBuffer T) (pos : Nat) : LineGapBuffer T :=
  let n := b.len
  let f : Line T → Line T :=
    fun li => { li with start := n - li.start, end_ := n - li.end_ }
  let p1 := gapShiftLeft f pos b.lines_left b.lines_right
  let p2 := gapShiftRight f pos p1.1 p1.2
  { b with lines_left := p2.1, lines_right := p2.2 }

/-- The rescan loop at the end of `LineGapBuffer::replace_slice`: splits the
region `[i, stop)` on newlines, pushing fresh line records, then pushes the
final record ending at `stop`. -/
def rescan (b : LineGapBuffer T) (stop t i : Nat) : LineGapBuffer T :=
  if hi : i < stop then
    if b.get_char i = '\n' then
      rescan
        { b with lines_left :=
            b.lines_left ++ [{ start := t, end_ := i, data := default }] }
        stop (i + 1) (i + 1)
    else rescan b stop t (i + 1)
  else { b with lines_left :=
      b.lines_left ++ [{ start := t, end_ := stop, data := default }] }
termination_by stop - i
decreasing_by
  · omega
  · omega

/-- `LineGapBuffer::replace_slice`. -/
def replace_slice (b : LineGapBuffer T) (start end_ : Nat)
    (new_slice : List Char) : LineGapBuffer T :=
  let line_left := b.find_line start
  let line_right := b.find_line end_ + 1
  let recompute_left := (b.get_line line_left).start
  let recompute_right :=
    (b.get_line (line_right - 1)).end_ - (end_ - start) + new_slice.length
  let b1 := b.move_line_gap line_left
  let b2 := { b1 with lines_right :=
      b1.lines_right.take (b1.lines_right.length - (line_right - line_left)) }
  let b3 := b2.move_char_gap start
  let b4 := { b3 with chars_right :=
      b3.chars_right.take (b3.chars_right.length - (end_ - start)) }
  let b5 := { b4 with chars_left := b4.chars_left ++ new_slice }
  rescan b5 recompute_right recompute_left recompute_left

/-- Abstraction: the document as the list of its characters. -/
def toList (b : LineGapBuffer T) : List Char :=
  b.chars_left ++ b.chars_right.reverse

end LineGapBuffer

/-- Specification of the line partition: the `(start, end)` pairs obtained by
splitting on newlines, positions counted from `pos` on, with `t` the start of
the line currently being scanned. -/
def linesOfAux (pos t : Nat) : List Char → List (Nat × Nat)
  | [] => [(t, pos)]
  | c :: rest =>
    if c = '\n' then (t, pos) :: linesOfAux (pos + 1) (pos + 1) rest
    else linesOfAux (pos + 1) t rest

/-- The line partition of a document. -/
def linesOf (l : List Char) : List (Nat × Nat) :=
  linesOfAux 0 0 l

/-- The `(start, end)` pair of a stored left-side line record. -/
def pairOf {T : Type} (li : Line T) : Nat × Nat :=
  (li.start, li.end_)

/-- The `(start, end)` pair denoted by a stored right-side line record
(flipped relative to the document length, see `get_line`). -/
def flipPair {T : Type} (n : Nat) (li : Line T) : Nat × Nat :=
  (n - li.start, n - li.end_)

/-- A fresh line record with default payload for a `(start, end)` pair. -/
def toLine {T : Type} [Inhabited T] (q : Nat × Nat) : Line T :=
  { start := q.1, end_ := q.2, data := default }

/-- The logical sequence of line ranges held by the buffer. -/
def logicalPairs {T : Type} (b : LineGapBuffer T) : List (Nat × Nat) :=
  b.lines_left.map pairOf ++ b.lines_right.reverse.map (flipPair b.len)

/-- Well-formedness: the stored line records denote exactly the newline
partition of the document, and right-side records are in range. -/
def Wf {T : Type} (b : LineGapBuffer T) : Prop :=
  logicalPairs b = linesOf b.toList ∧
  ∀ r ∈ b.lines_right, r.start ≤ b.len ∧ r.end_ ≤ b.len

/-- Buffers reachable from `new()` by `replace_slice` calls with valid
arguments. -/
inductive BReach {T : Type} [Inhabited T] : LineGapBuffer T → Prop
  | base : BReach LineGapBuffer.new
  | step {b : LineGapBuffer T} {s e : Nat} {t : List Char} :
      BReach b → s ≤ e → e ≤ b.len → BReach (b.replace_slice s e t)

/-- `SliceEdit` from `view_state.rs`: enough to invert one buffer mutation. -/
structure SliceEdit where
  old_text : List Char
  start : Nat
  end_ : Nat
deriving DecidableEq

/-- `UndoSnapshot` from `view_state.rs`. -/
structure UndoSnapshot where
  slice_edit_count : Nat
  cursor_pos : Nat
deriving DecidableEq

/-- The viewport/shaping side of `ViewState`, abstracted: `V` stands for the
`width`/`height`/`text_format`/`anchor_pos`/`anchor_y`/`anchor_x` fields plus
the per-line layout caches, and the three functions are the (external,
DirectWrite-backed) effects of `ensure_cursor_on_screen`, of the
`anchor_x = pos_to_coord(cursor_pos).0` refresh, and of the anchor resets in
`load`. They read the document and the cursor but never modify the document
characters or lines, the cursor, the selection or the undo state, which is
what the claims are about. -/
structure Shaper (V : Type) where
  ensureCursorOnScreen : LineGapBuffer Unit → Nat → V → V
  anchorXAt : LineGapBuffer Unit → Nat → V → V
  resetAnchors : V → V

/-- `ViewState` from `view_state.rs`. The document's per-line layout slot
`Option<TextLayout>` is external (only ever written by the layout cache), so
the line payload type is `Unit`. The four undo/redo stacks are lists with the
head as the stack top. -/
structure ViewState (V : Type) where
  document : LineGapBuffer Unit
  cursor_pos : Nat
  selection_pos : Nat
  viewport : V
  undo_slice_edits : List SliceEdit
  undo_snapshots : List UndoSnapshot
  redo_slice_edits : List SliceEdit
  redo_snapshots : List UndoSnapshot
  unmodified_snapshot : Option Nat

/-- `ViewState::replace_slice_and_get_edit`, at the document level (the method
only touches `self.document`). -/
def rsgeDoc (doc : LineGapBuffer Unit) (start end_ : Nat) (text : List Char) :
    Option SliceEdit × LineGapBuffer Unit :=
  if doc.slice_string start end_ = text then (none, doc)
  else
    (some { start := start, end_ := start + text.length,
            old_text := doc.slice_string start end_ },
     doc.replace_slice start end_ text)

namespace ViewState

variable {V : Type}

/-- `ViewState::replace_slice_and_get_edit`. -/
def replace_slice_and_get_edit (s : ViewState V) (start end_ : Nat)
    (text : List Char) : Option SliceEdit × ViewState V :=
  let p := rsgeDoc s.document start end_ text
  (p.1, { s with document := p.2 })

/-- `ViewState::replace_slice` (the private wrapper; its
`assert!(!undo_snapshots.is_empty())` is a precondition carried by the
theorems). -/
def replace_slice (s : ViewState V) (start end_ : Nat) (text : List Char) :
    ViewState V :=
  let p := s.replace_slice_and_get_edit start end_ text
  { p.2 with undo_slice_edits := p.1.toList ++ p.2.undo_slice_edits }

/-- `ViewState::modified`. -/
def modified (s : ViewState V) : Bool :=
  !(s.unmodified_snapshot == some s.undo_snapshots.length)

/-- The push branch of `ViewState::make_undo_snapshot` (note: the comparison
`n > redo_snapshots.len()` is kept exactly as in the source, where it runs
after both redo stacks were cleared). -/
def make_undo_snapshot_push (s : ViewState V) : ViewState V :=
  let s1 := { s with
    undo_snapshots :=
      ({ slice_edit_count := s.undo_slice_edits.length,
         cursor_pos := s.cursor_pos } : UndoSnapshot) :: s.undo_snapshots,
    redo_snapshots := ([] : List UndoSnapshot),
    redo_slice_edits := ([] : List SliceEdit) }
  match s1.unmodified_snapshot with
  | some n =>
    if n > s1.redo_snapshots.length then { s1 with unmodified_snapshot := none }
    else s1
  | none => s1

/-- `ViewState::make_undo_snapshot`. -/
def make_undo_snapshot (s : ViewState V) : ViewState V :=
  match s.undo_snapshots.head? with
  | some last =>
    if last.cursor_pos = s.cursor_pos ∧
        last.slice_edit_count = s.undo_slice_edits.length then s
    else make_undo_snapshot_push s
  | none => make_undo_snapshot_push s

/-- `ViewState::can_undo`. -/
def can_undo (s : ViewState V) : Bool :=
  !s.undo_snapshots.isEmpty

/-- `ViewState::can_redo`. -/
def can_redo (s : ViewState V) : Bool :=
  !s.redo_snapshots.isEmpty

/-- `ViewState::clear_selection`. -/
def clear_selection (s : ViewState V) : ViewState V :=
  { s with selection_pos := s.cursor_pos }

/-- `ViewState::ensure_cursor_on_screen` (abstract viewport effect). -/
def ensure_cursor_on_screen (sh : Shaper V) (s : ViewState V) : ViewState V :=
  { s with viewport := sh.ensureCursorOnScreen s.document s.cursor_pos s.viewport }

/-- `self.anchor_x = self.pos_to_coord(self.cursor_pos).0` (abstract viewport
effect). -/
def refresh_anchor_x (sh : Shaper V) (s : ViewState V) : ViewState V :=
  { s with viewport := sh.anchorXAt s.document s.cursor_pos s.viewport }

/-- The edit-reverting `while` loop inside `ViewState::undo`, at the level of
the document and the two edit logs. -/
def undoLoop (count : Nat) (doc : LineGapBuffer Unit)
    (ues res : List SliceEdit) :
    LineGapBuffer Unit × List SliceEdit × List SliceEdit :=
  if count < ues.length then
    match ues with
    | [] => (doc, ues, res)
    | e :: rest =>
      let p := rsgeDoc doc e.start e.end_ e.old_text
      undoLoop count p.2 rest (p.1.toList ++ res)
  else (doc, ues, res)
termination_by ues.length
decreasing_by
  simp

/-- `ViewState::undo`. -/
def undo (sh : Shaper V) (s : ViewState V) : ViewState V :=
  match s.undo_snapshots with
  | snap :: rest =>
    let s1 := { s with
      undo_snapshots := rest,
      redo_snapshots :=
        ({ slice_edit_count := s.redo_slice_edits.length,
           cursor_pos := s.cursor_pos } : UndoSnapshot) :: s.redo_snapshots }
    let p := undoLoop snap.slice_edit_count s1.document s1.undo_slice_edits
      s1.redo_slice_edits
    let s2 := { s1 with
      document := p.1,
      undo_slice_edits := p.snd.fst,
      redo_slice_edits := p.snd.snd,
      cursor_pos := snap.cursor_pos }
    ensure_cursor_on_screen sh (clear_selection s2)
  | [] => ensure_cursor_on_screen sh s

/-- The `mem::swap` pair in `ViewState::redo`. -/
def swap_undo_redo (s : ViewState V) : ViewState V :=
  { s with
    undo_snapshots := s.redo_snapshots, redo_snapshots := s.undo_snapshots,
    undo_slice_edits := s.redo_slice_edits,
    redo_slice_edits := s.undo_slice_edits }

/-- `ViewState::redo`: swap the stacks, `undo`, swap back. -/
def redo (sh : Shaper V) (s : ViewState V) : ViewState V :=
  swap_undo_redo (undo sh (swap_undo_redo s))

/-- `ViewState::load`. -/
def load (sh : Shaper V) (s : ViewState V) (text : List Char)
    (initially_modified : Bool) : ViewState V :=
  let doc1 := s.document.replace_slice 0 s.document.len text
  let doc2 := doc1.replace_slice 0 0 []
  { s with
    document := doc2,
    undo_snapshots := [], undo_slice_edits := [],
    redo_snapshots := [], redo_slice_edits := [],
    cursor_pos := 0, selection_pos := 0,
    viewport := sh.resetAnchors s.viewport,
    unmodified_snapshot := if initially_modified then none else some 0 }

/-- `ViewState::set_unmodified_snapshot`. -/
def set_unmodified_snapshot (s : ViewState V) : ViewState V :=
  { s with unmodified_snapshot := some s.undo_snapshots.length }

/-- `ViewState::content`. -/
def content (s : ViewState V) : List Char :=
  s.document.slice_string 0 s.document.len

/-- `ViewState::select_all`. -/
def select_all (s : ViewState V) : ViewState V :=
  { s with selection_pos := 0, cursor_pos := s.document.len }

/-- `ViewState::has_selection`. -/
def has_selection (s : ViewState V) : Bool :=
  s.cursor_pos != s.selection_pos

/-- `ViewState::get_selection`. -/
def get_selection (s : ViewState V) : List Char :=
  s.document.slice_string (min s.cursor_pos s.selection_pos)
    (max s.cursor_pos s.selection_pos)

/-- `ViewState::cut_selection`. -/
def cut_selection (sh : Shaper V) (s : ViewState V) :
    List Char × ViewState V :=
  let a := min s.cursor_pos s.selection_pos
  let b := max s.cursor_pos s.selection_pos
  let result := s.document.slice_string a b
  let s1 := replace_slice s a b []
  let s2 := { s1 with cursor_pos := a }
  (result, refresh_anchor_x sh (ensure_cursor_on_screen sh (clear_selection s2)))

/-- `ViewState::paste`. -/
def paste (sh : Shaper V) (s : ViewState V) (t : List Char) : ViewState V :=
  if s.selection_pos ≠ s.cursor_pos then
    let a := min s.cursor_pos s.selection_pos
    let b := max s.cursor_pos s.selection_pos
    let s1 := replace_slice s a b t
    let s2 := { s1 with cursor_pos := a + t.length }
    ensure_cursor_on_screen sh (clear_selection s2)
  else
    let s1 := replace_slice s s.cursor_pos s.cursor_pos t
    let s2 := { s1 with cursor_pos := s1.cursor_pos + t.length }
    ensure_cursor_on_screen sh (clear_selection s2)

/-- `ViewState::insert_char`. -/
def insert_char (sh : Shaper V) (s : ViewState V) (c : Char) : ViewState V :=
  if s.selection_pos ≠ s.cursor_pos then
    let a := min s.cursor_pos s.selection_pos
    let b := max s.cursor_pos s.selection_pos
    let s1 := replace_slice s a b [c]
    let s2 := { s1 with cursor_pos := a + 1 }
    refresh_anchor_x sh (ensure_cursor_on_screen sh (clear_selection s2))
  else
    let s1 := replace_slice s s.cursor_pos s.cursor_pos [c]
    let s2 := { s1 with cursor_pos := s1.cursor_pos + 1 }
    refresh_anchor_x sh (ensure_cursor_on_screen sh (clear_selection s2))

/-- `ViewState::backspace`. -/
def backspace (sh : Shaper V) (s : ViewState V) : ViewState V :=
  if s.selection_pos ≠ s.cursor_pos then
    let a := min s.cursor_pos s.selection_pos
    let b := max s.cursor_pos s.selection_pos
    let s1 := replace_slice s a b []
    let s2 := { s1 with cursor_pos := a }
    refresh_anchor_x sh (ensure_cursor_on_screen sh (clear_selection s2))
  else if s.cursor_pos > 0 then
    let s0 := { s with cursor_pos := s.cursor_pos - 1 }
    let s1 := replace_slice s0 s0.cursor_pos (s0.cursor_pos + 1) []
    refresh_anchor_x sh (ensure_cursor_on_screen sh (clear_selection s1))
  else s

/-- `ViewState::del`. -/
def del (sh : Shaper V) (s : ViewState V) : ViewState V :=
  if s.selection_pos ≠ s.cursor_pos then
    let a := min s.cursor_pos s.selection_pos
    let b := max s.cursor_pos s.selection_pos
    let s1 := replace_slice s a b []
    let s2 := { s1 with cursor_pos := a }
    refresh_anchor_x sh (ensure_cursor_on_screen sh (clear_selection s2))
  else if s.cursor_pos < s.document.len then
    let s1 := replace_slice s s.cursor_pos (s.cursor_pos + 1) []
    refresh_anchor_x sh (ensure_cursor_on_screen sh (clear_selection s1))
  else s

/-- `ViewState::left`. -/
def left (sh : Shaper V) (s : ViewState V) : ViewState V :=
  if s.cursor_pos > 0 then
    refresh_anchor_x sh (ensure_cursor_on_screen sh
      { s with cursor_pos := s.cursor_pos - 1 })
  else s

/-- `ViewState::right`. -/
def right (sh : Shaper V) (s : ViewState V) : ViewState V :=
  if s.cursor_pos < s.document.len then
    refresh_anchor_x sh (ensure_cursor_on_screen sh
      { s with cursor_pos := s.cursor_pos + 1 })
  else s

end ViewState

/-- The slice `[s, e)` of a character list. -/
def sliceOf (c : List Char) (s e : Nat) : List Char :=
  (c.drop s).take (e - s)

/-- Reverse-applying one recorded `SliceEdit` to a document (what
`replace_slice(start, end, old_text)` does to the content). -/
def applyEdit (c : List Char) (ed : SliceEdit) : List Char :=
  c.take ed.start ++ ed.old_text ++ c.drop ed.end_

/-- The inverse edit recorded when reverting `ed` on content `c`. -/
def invOf (c : List Char) (ed : SliceEdit) : SliceEdit :=
  { old_text := sliceOf c ed.start ed.end_, start := ed.start,
    end_ := ed.start + ed.old_text.length }

/-- Content after reverting a stack of edits (head = most recent). -/
def revertList : List Char → List SliceEdit → List Char
  | c, [] => c
  | c, ed :: rest => revertList (applyEdit c ed) rest

/-- The stack of inverse edits produced while reverting (head = last one
pushed, i.e. the inverse of the deepest edit). -/
def invList : List Char → List SliceEdit → List SliceEdit
  | _, [] => []
  | c, ed :: rest => invList (applyEdit c ed) rest ++ [invOf c ed]

/-- Coherence of an edit stack with the current content: every edit is in
range at its turn and actually changes the content. -/
def EditsOk : List Char → List SliceEdit → Prop
  | _, [] => True
  | c, ed :: rest =>
    ed.start ≤ ed.end_ ∧ ed.end_ ≤ c.length ∧
    sliceOf c ed.start ed.end_ ≠ ed.old_text ∧
    EditsOk (applyEdit c ed) rest

/-- Coherence of a snapshot stack: checkpoint counts fit under the current
edit-log length and decrease down the stack. -/
def SnapsOk : Nat → List UndoSnapshot → Prop
  | _, [] => True
  | m, sn :: rest => sn.slice_edit_count ≤ m ∧ SnapsOk sn.slice_edit_count rest

/-- The observables the undo/redo inverse theorem is about. -/
structure Obs where
  content : List Char
  cursor : Nat
  ues : List SliceEdit
  usnaps : List UndoSnapshot
  res : List SliceEdit
  rsnaps : List UndoSnapshot
deriving DecidableEq

/-- Observable part of a `ViewState` (everything except selection and
viewport). -/
def fullObs {V : Type} (s : ViewState V) : Obs :=
  { content := s.document.toList, cursor := s.cursor_pos,
    ues := s.undo_slice_edits, usnaps := s.undo_snapshots,
    res := s.redo_slice_edits, rsnaps := s.redo_snapshots }

/-- Both stacks coherent with the current content. -/
def Valid {V : Type} (s : ViewState V) : Prop :=
  EditsOk s.document.toList s.undo_slice_edits ∧
  SnapsOk s.undo_slice_edits.length s.undo_snapshots ∧
  EditsOk s.document.toList s.redo_slice_edits ∧
  SnapsOk s.redo_slice_edits.length s.redo_snapshots

/-- `n` successive `undo()` calls. -/
def undoN {V : Type} (sh : Shaper V) : Nat → ViewState V → ViewState V
  | 0, s => s
  | n + 1, s => undoN sh n (ViewState.undo sh s)

/-- `n` successive `redo()` calls (applied after `undoN`). -/
def redoN {V : Type} (sh : Shaper V) : Nat → ViewState V → ViewState V
  | 0, s => s
  | n + 1, s => ViewState.redo sh (redoN sh n s)

/-- The observable effect of the `mem::swap` pair in `redo`. -/
def swapObs (o : Obs) : Obs :=
  { o with ues := o.res, res := o.ues, usnaps := o.rsnaps, rsnaps := o.usnaps }

/-- The observable effect of one `undo()` call (proved against the code in
`undo_fullObs`). -/
def undoObs (o : Obs) : Obs :=
  match o.usnaps with
  | [] => o
  | snap :: rest =>
    let es := o.ues.take (o.ues.length - snap.slice_edit_count)
    { content := revertList o.content es, cursor := snap.cursor_pos,
      ues := o.ues.drop (o.ues.length - snap.slice_edit_count),
      usnaps := rest,
      res := invList o.content es ++ o.res,
      rsnaps := { slice_edit_count := o.res.length,
                  cursor_pos := o.cursor } :: o.rsnaps }

/-- The observable effect of one `redo()` call: swap, undo, swap back. -/
def redoObs (o : Obs) : Obs :=
  swapObs (undoObs (swapObs o))

/-- Stack coherence at the observable level (`Valid` through `fullObs`). -/
def ValidObs (o : Obs) : Prop :=
  EditsOk o.content o.ues ∧ SnapsOk o.ues.length o.usnaps ∧
  EditsOk o.content o.res ∧ SnapsOk o.res.length o.rsnaps

/-- `n` observable undo steps. -/
def undoIter : Nat → Obs → Obs
  | 0, o => o
  | n + 1, o => undoIter n (undoObs o)

/-- `n` observable redo steps. -/
def redoIter : Nat → Obs → Obs
  | 0, o => o
  | n + 1, o => redoObs (redoIter n o)

/-- A trivial viewport instance for concrete runs. -/
def unitShaper : Shaper Unit :=
  { ensureCursorOnScreen := fun _ _ v => v, anchorXAt := fun _ _ v => v,
    resetAnchors := fun v => v }

/-- A well-formed one-character document, used in concrete runs. -/
def bufA : LineGapBuffer Unit :=
  { chars_left := ['a'], chars_right := [],
    lines_left := [{ start := 0, end_ := 1, data := () }], lines_right := [] }

/-- A concrete engine state over `bufA` with the cursor at the end of the
document and one undo snapshot. -/
def stateA : ViewState Unit :=
  { document := bufA, cursor_pos := 1, selection_pos := 1, viewport := (),
    undo_slice_edits := [],
    undo_snapshots := [{ slice_edit_count := 0, cursor_pos := 0 }],
    redo_slice_edits := [], redo_snapshots := [],
    unmodified_snapshot := none }

/-- The state `stateA` with the cursor (and selection) moved to position 0. -/
def stateC : ViewState Unit :=
  { document := bufA, cursor_pos := 0, selection_pos := 0, viewport := (),
    undo_slice_edits := [],
    undo_snapshots := [{ slice_edit_count := 0, cursor_pos := 0 }],
    redo_slice_edits := [], redo_snapshots := [],
    unmodified_snapshot := none }

/-- A fresh engine state over the empty document. -/
def state0 : ViewState Unit :=
  { document := LineGapBuffer.new, cursor_pos := 0, selection_pos := 0,
    viewport := (), undo_slice_edits := [], undo_snapshots := [],
    redo_slice_edits := [], redo_snapshots := [],
    unmodified_snapshot := some 0 }

/-- A concrete engine state where `set_unmodified_snapshot` has marked the
nonzero depth 1 (one snapshot on the stack). -/
def stateB : ViewState Unit :=
  { document := bufA, cursor_pos := 1, selection_pos := 1, viewport := (),
    undo_slice_edits := [{ old_text := [], start := 0, end_ := 1 }],
    undo_snapshots := [{ slice_edit_count := 0, cursor_pos := 0 }],
    redo_slice_edits := [], redo_snapshots := [],
    unmodified_snapshot := some 1 }

/-- The invariant maintained along snapshot/edit histories: coherent stacks,
empty redo side, and in-range cursor and selection. -/
def Inv {V : Type} (s : ViewState V) : Prop :=
  Valid s ∧ s.redo_slice_edits = [] ∧ s.redo_snapshots = [] ∧
  s.cursor_pos ≤ s.document.len ∧ s.selection_pos ≤ s.document.len

/-- Engine states produced by a `load` followed by any sequence of editing
operations, cursor moves and `make_undo_snapshot` calls (no undo/redo in the
history, matching the claim about sequences of snapshots and edits). -/
inductive Reach {V : Type} (sh : Shaper V) : ViewState V → Prop
  | of_load (s0 : ViewState V) (text : List Char) (b : Bool) :
      Reach sh (ViewState.load sh s0 text b)
  | of_insert_char {s : ViewState V} (c : Char) :
      Reach sh s → Reach sh (ViewState.insert_char sh s c)
  | of_backspace {s : ViewState V} :
      Reach sh s → Reach sh (ViewState.backspace sh s)
  | of_del {s : ViewState V} :
      Reach sh s → Reach sh (ViewState.del sh s)
  | of_paste {s : ViewState V} (t : List Char) :
      Reach sh s → Reach sh (ViewState.paste sh s t)
  | of_cut_selection {s : ViewState V} :
      Reach sh s → Reach sh (ViewState.cut_selection sh s).2
  | of_select_all {s : ViewState V} :
      Reach sh s → Reach sh (ViewState.select_all s)
  | of_left {s : ViewState V} :
      Reach sh s → Reach sh (ViewState.left sh s)
  | of_right {s : ViewState V} :
      Reach sh s → Reach sh (ViewState.right sh s)
  | of_clear_selection {s : ViewState V} :
      Reach sh s → Reach sh (ViewState.clear_selection s)
  | of_make_undo_snapshot {s : ViewState V} :
      Reach sh s → Reach sh (ViewState.make_undo_snapshot s)
  | of_set_unmodified_snapshot {s : ViewState V} :
      Reach sh s → Reach sh (ViewState.set_unmodified_snapshot s)

/-! ### Basic list facts -/

theorem range'_map_getD {α : Type} [Inhabited α] (l : List α) :
    ∀ (k s : Nat), s + k ≤ l.length →
      (List.range' s k).map (fun i => l.getD i default) = (l.drop s).take k := by
  intro k
  induction k with
  | zero => intro s _; simp
  | succ k ih =>
    intro s hs
    have hlt : s < l.length := by omega
    rw [List.range'_succ, List.map_cons, List.drop_eq_getElem_cons hlt,
      List.take_succ_cons, ih (s + 1) (by omega)]
    rw [List.getD_eq_getElem l default hlt]

/-! ### Gap buffer abstraction lemmas -/

namespace LineGapBuffer

variable {T : Type} [Inhabited T]

theorem length_toList (b : LineGapBuffer T) : b.toList.length = b.len := by
  simp [toList, len]

theorem toList_mk (cl cr : List Char) (ll lr : List (Line T)) :
    (LineGapBuffer.mk cl cr ll lr).toList = cl ++ cr.reverse := rfl

theorem get_char_eq (b : LineGapBuffer T) {pos : Nat} (h : pos < b.len) :
    b.get_char pos = b.toList.getD pos default := by
  have hL : b.len = b.chars_left.length + b.chars_right.length := rfl
  have hlen : pos < b.toList.length := by rw [length_toList]; exact h
  rw [List.getD_eq_getElem b.toList default hlen]
  unfold get_char toList
  by_cases hl : pos < b.chars_left.length
  · rw [if_pos hl, List.getD_eq_getElem b.chars_left default hl,
      List.getElem_append_left hl]
  · rw [if_neg hl]
    rw [List.getElem_append_right (by omega)]
    rw [List.getElem_reverse]
    have he : b.len - 1 - pos =
        b.chars_right.length - 1 - (pos - b.chars_left.length) := by omega
    rw [he]
    rw [List.getD_eq_getElem b.chars_right default (by omega)]

theorem slice_string_eq (b : LineGapBuffer T) {s e : Nat} (he : e ≤ b.len) :
    b.slice_string s e = (b.toList.drop s).take (e - s) := by
  unfold slice_string
  by_cases hse : s ≤ e
  · rw [List.map_congr_left (g := fun i => b.toList.getD i default)]
    · exact range'_map_getD b.toList (e - s) s (by rw [length_toList]; omega)
    · intro i hi
      rw [List.mem_range'_1] at hi
      exact b.get_char_eq (by omega)
  · have h0 : e - s = 0 := by omega
    rw [h0]
    simp

theorem slice_string_zero_len (b : LineGapBuffer T) :
    b.slice_string 0 b.len = b.toList := by
  rw [slice_string_eq b (Nat.le_refl _)]
  simp [length_toList]

theorem length_slice_string (b : LineGapBuffer T) {s e : Nat} (hs : s ≤ e)
    (he : e ≤ b.len) : (b.slice_string s e).length = e - s := by
  rw [slice_string_eq b he]
  simp [length_toList]
  omega

end LineGapBuffer

/-! ### Gap movement -/

theorem gapShiftLeft_of_ge {α : Type} (f : α → α) (pos : Nat) (l r : List α)
    (h : l.length ≤ pos) : gapShiftLeft f pos l r = (l, r) := by
  rw [gapShiftLeft]
  rw [dif_neg (by omega)]

theorem gapShiftLeft_spec {α : Type} (f : α → α) (pos : Nat) (l r : List α)
    (h : pos ≤ l.length) :
    gapShiftLeft f pos l r = (l.take pos, r ++ (l.drop pos).reverse.map f) := by
  induction l using List.reverseRecOn generalizing r with
  | nil =>
    rw [gapShiftLeft]
    simp at h
    simp [h]
  | append_singleton l a ih =>
    rw [gapShiftLeft]
    by_cases hc : (l ++ [a]).length > pos
    · rw [dif_pos hc]
      have hla : (l ++ [a]).getLast? = some a := by simp
      split
      next c hsome =>
        rw [hla] at hsome
        cases hsome
        rw [List.dropLast_concat]
        have hple : pos ≤ l.length := by simp at hc; omega
        rw [ih (r ++ [f a]) hple]
        rw [List.take_append_of_le_length hple,
          List.drop_append_of_le_length hple]
        simp
      next hnone =>
        rw [hla] at hnone
        cases hnone
    · rw [dif_neg hc]
      have hpe : pos = l.length + 1 := by simp at hc h; omega
      subst hpe
      rw [List.take_of_length_le (by simp), List.drop_of_length_le (by simp)]
      simp

theorem gapShiftRight_of_le {α : Type} (f : α → α) (pos : Nat) (l r : List α)
    (h : pos ≤ l.length) : gapShiftRight f pos l r = (l, r) := by
  rw [gapShiftRight]
  rw [dif_neg (by omega)]

theorem gapShiftRight_spec {α : Type} (f : α → α) (pos : Nat) (l r : List α)
    (h1 : l.length ≤ pos) (h2 : pos ≤ l.length + r.length) :
    gapShiftRight f pos l r =
      (l ++ (r.drop (l.length + r.length - pos)).reverse.map f,
       r.take (l.length + r.length - pos)) := by
  induction r using List.reverseRecOn generalizing l with
  | nil =>
    have hpe : pos = l.length := by simp at h2; omega
    subst hpe
    rw [gapShiftRight, dif_neg (by omega)]
    simp
  | append_singleton r a ih =>
    rw [gapShiftRight]
    by_cases hc : l.length < pos
    · rw [dif_pos hc]
      have hla : (r ++ [a]).getLast? = some a := by simp
      split
      next c hsome =>
        rw [hla] at hsome
        cases hsome
        rw [List.dropLast_concat]
        have h1' : (l ++ [f a]).length ≤ pos := by simp; omega
        have h2' : pos ≤ (l ++ [f a]).length + r.length := by
          simp at h2 ⊢
          omega
        rw [ih (l ++ [f a]) h1' h2']
        have hm : (l ++ [f a]).length + r.length - pos =
            l.length + (r ++ [a]).length - pos := by simp; omega
        rw [hm]
        have hmr : l.length + (r ++ [a]).length - pos ≤ r.length := by
          simp
          omega
        rw [List.drop_append_of_le_length hmr, List.take_append_of_le_length hmr]
        simp
      next hnone =>
        rw [hla] at hnone
        cases hnone
    · rw [dif_neg hc]
      have hpe : pos = l.length := by omega
      subst hpe
      have hm : l.length + (r ++ [a]).length - l.length = (r ++ [a]).length := by
        omega
      rw [hm]
      rw [List.drop_of_length_le (Nat.le_refl _), List.take_of_length_le (Nat.le_refl _)]
      simp

theorem move_char_gap_spec {T : Type} [Inhabited T] (b : LineGapBuffer T)
    (pos : Nat) (h : pos ≤ b.len) :
    b.move_char_gap pos =
      { b with chars_left := b.toList.take pos,
               chars_right := (b.toList.drop pos).reverse } := by
  have hL : b.len = b.chars_left.length + b.chars_right.length := rfl
  unfold LineGapBuffer.move_char_gap
  by_cases hc : pos ≤ b.chars_left.length
  · rw [gapShiftLeft_spec id pos _ _ hc]
    dsimp only
    rw [gapShiftRight_of_le id pos _ _ (by simp; omega)]
    unfold LineGapBuffer.toList
    simp only [LineGapBuffer.mk.injEq]
    refine ⟨by rw [List.take_append_of_le_length hc], ?_, trivial, trivial⟩
    rw [List.drop_append_of_le_length hc]
    simp
  · rw [gapShiftLeft_of_ge id pos _ _ (by omega)]
    dsimp only
    rw [gapShiftRight_spec id pos _ _ (by omega) (by omega)]
    unfold LineGapBuffer.toList
    simp only [LineGapBuffer.mk.injEq]
    refine ⟨?_, ?_, trivial, trivial⟩
    · rw [List.take_append_eq_append_take]
      rw [List.take_of_length_le (l := b.chars_left) (by omega)]
      rw [List.take_reverse]
      simp only [List.map_id, List.length_reverse]
      have he : b.chars_left.length + b.chars_right.length - pos =
          b.chars_right.length - (pos - b.chars_left.length) := by omega
      rw [he]
    · rw [List.drop_append_eq_append_drop]
      rw [List.drop_of_length_le (l := b.chars_left) (by omega)]
      rw [List.nil_append, List.drop_reverse, List.reverse_reverse]
      have he : b.chars_left.length + b.chars_right.length - pos =
          b.chars_right.length - (pos - b.chars_left.length) := by omega
      rw [he]

theorem move_line_gap_chars {T : Type} [Inhabited T] (b : LineGapBuffer T)
    (pos : Nat) :
    (b.move_line_gap pos).chars_left = b.chars_left ∧
    (b.move_line_gap pos).chars_right = b.chars_right := by
  unfold LineGapBuffer.move_line_gap
  exact ⟨rfl, rfl⟩

theorem move_char_gap_lines {T : Type} [Inhabited T] (b : LineGapBuffer T)
    (pos : Nat) :
    (b.move_char_gap pos).lines_left = b.lines_left ∧
    (b.move_char_gap pos).lines_right = b.lines_right := by
  unfold LineGapBuffer.move_char_gap
  exact ⟨rfl, rfl⟩

/-! ### Line partition facts -/

theorem linesOfAux_nil (p t : Nat) : linesOfAux p t [] = [(t, p)] := rfl

theorem linesOfAux_cons_newline (p t : Nat) (rest : List Char) :
    linesOfAux p t ('\n' :: rest) =
      (t, p) :: linesOfAux (p + 1) (p + 1) rest := by
  rw [linesOfAux]
  rw [if_pos rfl]

theorem linesOfAux_cons_other (p t : Nat) {c : Char} (rest : List Char)
    (hc : c ≠ '\n') :
    linesOfAux p t (c :: rest) = linesOfAux (p + 1) t rest := by
  rw [linesOfAux]
  rw [if_neg hc]

theorem length_linesOfAux (l : List Char) :
    ∀ p t : Nat, (linesOfAux p t l).length = 1 + l.count '\n' := by
  induction l with
  | nil => intro p t; simp [linesOfAux_nil]
  | cons c rest ih =>
    intro p t
    by_cases hc : c = '\n'
    · subst hc
      rw [linesOfAux_cons_newline]
      simp [ih, List.count_cons]
      omega
    · rw [linesOfAux_cons_other p t rest hc]
      simp [ih, List.count_cons, hc]

theorem linesOfAux_ne_nil (l : List Char) (p t : Nat) :
    linesOfAux p t l ≠ [] := by
  have h := length_linesOfAux l p t
  intro he
  rw [he] at h
  simp only [List.length_nil] at h
  omega

theorem linesOfAux_head (l : List Char) :
    ∀ p t : Nat, ∀ d : Nat × Nat, ((linesOfAux p t l).getD 0 d).1 = t := by
  induction l with
  | nil => intro p t d; simp [linesOfAux_nil]
  | cons c rest ih =>
    intro p t d
    by_cases hc : c = '\n'
    · subst hc
      rw [linesOfAux_cons_newline]
      simp
    · rw [linesOfAux_cons_other p t rest hc]
      exact ih (p + 1) t d

theorem linesOfAux_last (l : List Char) :
    ∀ p t : Nat, ∀ d : Nat × Nat,
      ((linesOfAux p t l).getLastD d).2 = p + l.length := by
  induction l with
  | nil => intro p t d; simp [linesOfAux_nil]
  | cons c rest ih =>
    intro p t d
    by_cases hc : c = '\n'
    · subst hc
      rw [linesOfAux_cons_newline, List.getLastD_cons]
      rw [ih (p + 1) (p + 1) (t, p)]
      simp
      omega
    · rw [linesOfAux_cons_other p t rest hc]
      rw [ih (p + 1) t d]
      simp
      omega

theorem linesOfAux_append_newline (xs : List Char) :
    ∀ (p t : Nat) (ys : List Char),
      linesOfAux p t (xs ++ '\n' :: ys) =
        linesOfAux p t xs ++
          linesOfAux (p + xs.length + 1) (p + xs.length + 1) ys := by
  induction xs with
  | nil =>
    intro p t ys
    rw [List.nil_append, linesOfAux_cons_newline, linesOfAux_nil]
    simp
  | cons c rest ih =>
    intro p t ys
    by_cases hc : c = '\n'
    · subst hc
      rw [List.cons_append, linesOfAux_cons_newline, linesOfAux_cons_newline]
      rw [ih (p + 1) (p + 1) ys]
      have he : p + 1 + rest.length + 1 = p + (rest.length + 1) + 1 := by omega
      rw [he]
      simp
    · rw [List.cons_append, linesOfAux_cons_other _ _ _ hc,
        linesOfAux_cons_other _ _ _ hc]
      rw [ih (p + 1) t ys]
      have he : p + 1 + rest.length + 1 = p + (rest.length + 1) + 1 := by omega
      rw [he]
      simp

theorem linesOfAux_shift (l : List Char) :
    ∀ p t d : Nat,
      linesOfAux (p + d) (t + d) l =
        (linesOfAux p t l).map (fun q => (q.1 + d, q.2 + d)) := by
  induction l with
  | nil => intro p t d; simp [linesOfAux_nil]
  | cons c rest ih =>
    intro p t d
    by_cases hc : c = '\n'
    · subst hc
      rw [linesOfAux_cons_newline, linesOfAux_cons_newline, List.map_cons]
      have he : p + d + 1 = (p + 1) + d := by omega
      rw [he, ih (p + 1) (p + 1) d]
    · rw [linesOfAux_cons_other _ _ _ hc, linesOfAux_cons_other _ _ _ hc]
      have he : p + d + 1 = (p + 1) + d := by omega
      rw [he, ih (p + 1) t d]

theorem linesOfAux_abs (l : List Char) (a : Nat) :
    linesOfAux a a l = (linesOf l).map (fun q => (q.1 + a, q.2 + a)) := by
  have h := linesOfAux_shift l 0 0 a
  simpa [linesOf] using h

theorem linesOfAux_mem (l : List Char) :
    ∀ p t : Nat, t ≤ p → ∀ q ∈ linesOfAux p t l,
      t ≤ q.1 ∧ q.1 ≤ q.2 ∧ q.2 ≤ p + l.length := by
  induction l with
  | nil =>
    intro p t ht q hq
    rw [linesOfAux_nil] at hq
    simp at hq
    subst hq
    exact ⟨Nat.le_refl _, ht, by simp⟩
  | cons c rest ih =>
    intro p t ht q hq
    by_cases hc : c = '\n'
    · subst hc
      rw [linesOfAux_cons_newline] at hq
      rcases List.mem_cons.mp hq with hq1 | hq2
      · subst hq1
        exact ⟨Nat.le_refl _, ht, by simp only [List.length_cons]; omega⟩
      · have h := ih (p + 1) (p + 1) (Nat.le_refl _) q hq2
        refine ⟨by omega, h.2.1, by simp only [List.length_cons]; omega⟩
    · rw [linesOfAux_cons_other _ _ _ hc] at hq
      have h := ih (p + 1) t (by omega) q hq
      refine ⟨h.1, h.2.1, by simp only [List.length_cons]; omega⟩

theorem linesOfAux_cut (l : List Char) :
    ∀ p t i e : Nat, t ≤ p → i + 1 < (linesOfAux p t l).length →
      e = ((linesOfAux p t l).getD i (0, 0)).2 →
      p ≤ e ∧ e - p < l.length ∧ l.getD (e - p) default = '\n' ∧
      (linesOfAux p t l).take (i + 1) = linesOfAux p t (l.take (e - p)) ∧
      (linesOfAux p t l).drop (i + 1) =
        linesOfAux (e + 1) (e + 1) (l.drop (e - p + 1)) := by
  induction l with
  | nil =>
    intro p t i e ht hi he
    rw [linesOfAux_nil] at hi
    simp at hi
  | cons c rest ih =>
    intro p t i e ht hi he
    by_cases hc : c = '\n'
    · subst hc
      rw [linesOfAux_cons_newline] at hi he ⊢
      cases i with
      | zero =>
        simp at he
        subst he
        refine ⟨Nat.le_refl _, by simp, by simp, ?_, ?_⟩
        · simp [linesOfAux_nil]
        · simp
      | succ i =>
        simp only [List.length_cons] at hi
        have hi' : i + 1 < (linesOfAux (p + 1) (p + 1) rest).length := by omega
        have he' : e = ((linesOfAux (p + 1) (p + 1) rest).getD i (0, 0)).2 := by
          simpa using he
        obtain ⟨c1, c2, c3, c4, c5⟩ :=
          ih (p + 1) (p + 1) i e (Nat.le_refl _) hi' he'
        have hep : e - p = (e - (p + 1)) + 1 := by omega
        refine ⟨by omega, by simp only [List.length_cons]; omega, ?_, ?_, ?_⟩
        · rw [hep]
          simpa using c3
        · rw [List.take_succ_cons, c4, hep, List.take_succ_cons]
          rw [linesOfAux_cons_newline]
        · rw [List.drop_succ_cons, c5, hep]
          simp
    · rw [linesOfAux_cons_other _ _ _ hc] at hi he ⊢
      obtain ⟨c1, c2, c3, c4, c5⟩ := ih (p + 1) t i e (by omega) hi he
      have hep : e - p = (e - (p + 1)) + 1 := by omega
      refine ⟨by omega, by simp only [List.length_cons]; omega, ?_, ?_, ?_⟩
      · rw [hep]
        simpa using c3
      · rw [c4, hep, List.take_succ_cons]
        rw [linesOfAux_cons_other _ _ _ hc]
      · rw [c5, hep]
        simp

theorem linesOfAux_adj (l : List Char) (p t i : Nat) (ht : t ≤ p)
    (hi : i + 1 < (linesOfAux p t l).length) :
    ((linesOfAux p t l).getD (i + 1) (0, 0)).1 =
      ((linesOfAux p t l).getD i (0, 0)).2 + 1 := by
  obtain ⟨-, -, -, -, c5⟩ := linesOfAux_cut l p t i _ ht hi rfl
  have hd : (linesOfAux p t l).getD (i + 1) (0, 0) =
      ((linesOfAux p t l).drop (i + 1)).getD 0 (0, 0) := by
    rw [List.getD_eq_getElem _ _ hi]
    rw [List.getD_eq_getElem _ _ (by simp; omega)]
    rw [List.getElem_drop]
  rw [hd, c5]
  rw [linesOfAux_head]

theorem linesOfAux_start_add (l : List Char) (p t : Nat) (ht : t ≤ p) :
    ∀ d i : Nat, i + d < (linesOfAux p t l).length →
      ((linesOfAux p t l).getD i (0, 0)).1 + d ≤
        ((linesOfAux p t l).getD (i + d) (0, 0)).1 := by
  intro d
  induction d with
  | zero => intro i hi; simp
  | succ d ih =>
    intro i hi
    have h1 := ih i (by omega)
    have h2 := linesOfAux_adj l p t (i + d) ht (by omega)
    have h3 : (linesOfAux p t l).getD (i + d) (0, 0) ∈ linesOfAux p t l := by
      rw [List.getD_eq_getElem _ _ (by omega)]
      exact List.getElem_mem _
    have h4 := linesOfAux_mem l p t ht _ h3
    have he : i + (d + 1) = (i + d) + 1 := by omega
    rw [he]
    omega

/-! ### Rescan and the character effect of replace_slice -/

namespace LineGapBuffer

variable {T : Type} [Inhabited T]

theorem rescan_chars_aux :
    ∀ (k : Nat) (b : LineGapBuffer T) (stop t i : Nat), stop - i ≤ k →
      (b.rescan stop t i).chars_left = b.chars_left ∧
      (b.rescan stop t i).chars_right = b.chars_right ∧
      (b.rescan stop t i).lines_right = b.lines_right := by
  intro k
  induction k with
  | zero =>
    intro b stop t i hk
    rw [rescan, dif_neg (by omega)]
    exact ⟨rfl, rfl, rfl⟩
  | succ k ih =>
    intro b stop t i hk
    by_cases hi : i < stop
    · rw [rescan, dif_pos hi]
      by_cases hnl : b.get_char i = '\n'
      · rw [if_pos hnl]
        exact ih _ stop (i + 1) (i + 1) (by omega)
      · rw [if_neg hnl]
        exact ih b stop t (i + 1) (by omega)
    · rw [rescan, dif_neg hi]
      exact ⟨rfl, rfl, rfl⟩

theorem rescan_toList (b : LineGapBuffer T) (stop t i : Nat) :
    (b.rescan stop t i).toList = b.toList := by
  obtain ⟨h1, h2, -⟩ := rescan_chars_aux (stop - i) b stop t i (Nat.le_refl _)
  unfold toList
  rw [h1, h2]

theorem rescan_len (b : LineGapBuffer T) (stop t i : Nat) :
    (b.rescan stop t i).len = b.len := by
  obtain ⟨h1, h2, -⟩ := rescan_chars_aux (stop - i) b stop t i (Nat.le_refl _)
  unfold len
  rw [h1, h2]

theorem rescan_spec :
    ∀ (k : Nat) (b : LineGapBuffer T) (stop t i : Nat),
      stop ≤ b.len → i + k = stop →
      b.rescan stop t i =
        { b with lines_left := b.lines_left ++
            (linesOfAux i t ((b.toList.drop i).take (stop - i))).map toLine } := by
  intro k
  induction k with
  | zero =>
    intro b stop t i hstop hik
    have hie : i = stop := by omega
    subst hie
    rw [rescan, dif_neg (by omega)]
    have h0 : i - i = 0 := by omega
    rw [h0]
    simp [linesOfAux_nil, toLine]
  | succ k ih =>
    intro b stop t i hstop hik
    have hi : i < stop := by omega
    have hilen : i < b.toList.length := by rw [length_toList]; omega
    have hchar : b.get_char i = b.toList.getD i default :=
      b.get_char_eq (by omega)
    have hmid : (b.toList.drop i).take (stop - i) =
        b.toList.getD i default ::
          ((b.toList.drop (i + 1)).take (stop - (i + 1))) := by
      rw [List.drop_eq_getElem_cons hilen]
      have hsi : stop - i = (stop - (i + 1)) + 1 := by omega
      rw [hsi, List.take_succ_cons]
      rw [List.getD_eq_getElem _ _ hilen]
    rw [rescan, dif_pos hi]
    by_cases hnl : b.get_char i = '\n'
    · rw [if_pos hnl]
      have hrec := ih
        { chars_left := b.chars_left, chars_right := b.chars_right,
          lines_left :=
            b.lines_left ++ [{ start := t, end_ := i, data := default }],
          lines_right := b.lines_right } stop (i + 1) (i + 1) hstop (by omega)
      rw [hrec]
      have hni : b.toList.getD i default = '\n' := by rw [← hchar]; exact hnl
      rw [hmid, hni, linesOfAux_cons_newline, List.map_cons]
      simp [toLine, LineGapBuffer.toList]
    · rw [if_neg hnl]
      rw [ih b stop t (i + 1) hstop (by omega)]
      have hni : ¬b.toList.getD i default = '\n' := by rw [← hchar]; exact hnl
      rw [hmid, linesOfAux_cons_other _ _ _ hni]

/-- Unfolding `replace_slice` into its final `rescan` call; the characters fed
to the rescan are those of `move_char_gap` on the original buffer (the
interleaved line-record updates do not touch them). -/
theorem replace_slice_unfold (b : LineGapBuffer T) (s e : Nat)
    (t : List Char) :
    b.replace_slice s e t =
      LineGapBuffer.rescan
        { chars_left := (b.move_char_gap s).chars_left ++ t,
          chars_right := (b.move_char_gap s).chars_right.take
            ((b.move_char_gap s).chars_right.length - (e - s)),
          lines_left := (b.move_line_gap (b.find_line s)).lines_left,
          lines_right := (b.move_line_gap (b.find_line s)).lines_right.take
            ((b.move_line_gap (b.find_line s)).lines_right.length
              - (b.find_line e + 1 - b.find_line s)) }
        ((b.get_line (b.find_line e + 1 - 1)).end_ - (e - s) + t.length)
        ((b.get_line (b.find_line s)).start)
        ((b.get_line (b.find_line s)).start) := rfl

theorem replace_slice_toList (b : LineGapBuffer T) {s e : Nat}
    (t : List Char) (hs : s ≤ e) (he : e ≤ b.len) :
    (b.replace_slice s e t).toList =
      b.toList.take s ++ t ++ b.toList.drop e := by
  rw [replace_slice_unfold, rescan_toList]
  rw [move_char_gap_spec b s (by omega)]
  dsimp only
  rw [toList_mk]
  rw [List.length_reverse, List.take_reverse]
  have hq : (b.toList.drop s).length -
      ((b.toList.drop s).length - (e - s)) = e - s := by
    have := length_toList b
    simp
    omega
  rw [hq, List.reverse_reverse, List.drop_drop]
  have he2 : s + (e - s) = e := by omega
  rw [he2]

theorem replace_slice_len (b : LineGapBuffer T) {s e : Nat}
    (t : List Char) (hs : s ≤ e) (he : e ≤ b.len) :
    (b.replace_slice s e t).len = s + t.length + (b.len - e) := by
  have h := replace_slice_toList b t hs he
  have h2 : (b.replace_slice s e t).toList.length =
      (b.toList.take s ++ t ++ b.toList.drop e).length := by rw [h]
  rw [length_toList] at h2
  simp [length_toList] at h2
  omega

end LineGapBuffer

/-! ### get_line and find_line under well-formedness -/

theorem length_logicalPairs {T : Type} (b : LineGapBuffer T) :
    (logicalPairs b).length = b.num_lines := by
  simp [logicalPairs, LineGapBuffer.num_lines]

theorem get_line_eq {T : Type} [Inhabited T] (b : LineGapBuffer T) {i : Nat}
    (hi : i < b.num_lines) :
    ((b.get_line i).start, (b.get_line i).end_) =
      (logicalPairs b).getD i (0, 0) := by
  have hlen : i < (logicalPairs b).length := by
    rw [length_logicalPairs]
    exact hi
  rw [List.getD_eq_getElem _ _ hlen]
  unfold LineGapBuffer.get_line logicalPairs
  have hnum : b.num_lines = b.lines_left.length + b.lines_right.length := rfl
  by_cases hl : i < b.lines_left.length
  · rw [if_pos hl]
    unfold logicalPairs at hlen
    rw [List.getElem_append_left (by simpa using hl)]
    rw [List.getElem_map]
    rw [List.getD_eq_getElem _ _ hl]
    rfl
  · rw [if_neg hl]
    dsimp only
    unfold logicalPairs at hlen
    rw [List.getElem_append_right (by simpa using (by omega : b.lines_left.length ≤ i))]
    rw [List.getElem_map, List.getElem_reverse]
    have hrl : 0 < b.lines_right.length := by omega
    have heq : b.num_lines - 1 - i =
        b.lines_right.length - 1 - (i - (b.lines_left.map pairOf).length) := by
      simp
      omega
    rw [heq]
    have hidx : b.lines_right.length - 1 -
        (i - (b.lines_left.map pairOf).length) < b.lines_right.length := by omega
    rw [List.getD_eq_getElem _ _ hidx]
    rfl

theorem num_lines_eq {T : Type} [Inhabited T] (b : LineGapBuffer T)
    (hWf : Wf b) : b.num_lines = (linesOf b.toList).length := by
  rw [← hWf.1, length_logicalPairs]

theorem get_line_pairs {T : Type} [Inhabited T] (b : LineGapBuffer T)
    (hWf : Wf b) {i : Nat} (hi : i < b.num_lines) :
    (b.get_line i).start = ((linesOf b.toList).getD i (0, 0)).1 ∧
    (b.get_line i).end_ = ((linesOf b.toList).getD i (0, 0)).2 := by
  have h := get_line_eq b hi
  rw [hWf.1] at h
  exact ⟨congrArg Prod.fst h, congrArg Prod.snd h⟩

theorem num_lines_pos {T : Type} [Inhabited T] (b : LineGapBuffer T)
    (hWf : Wf b) : 0 < b.num_lines := by
  rw [num_lines_eq b hWf]
  unfold linesOf
  rw [length_linesOfAux]
  omega

theorem getD_length_sub_one {α : Type} (l : List α) (d : α) (h : l ≠ []) :
    l.getD (l.length - 1) d = l.getLastD d := by
  induction l using List.reverseRecOn with
  | nil => simp at h
  | append_singleton ys a ih =>
    rw [List.getLastD_concat]
    rw [List.getD_eq_getElem _ _ (by simp)]
    rw [List.getElem_append_right (by simp)]
    simp

theorem find_line_go_spec {T : Type} [Inhabited T] (b : LineGapBuffer T)
    (hWf : Wf b) (pos : Nat) :
    ∀ (d left right : Nat), right - left = d → left < right →
      right ≤ b.num_lines →
      ((linesOf b.toList).getD left (0, 0)).1 ≤ pos →
      (right = b.num_lines ∨
        pos < ((linesOf b.toList).getD right (0, 0)).1) →
      left ≤ b.find_line_go pos left right ∧
      b.find_line_go pos left right < right ∧
      ((linesOf b.toList).getD (b.find_line_go pos left right) (0, 0)).1 ≤ pos ∧
      (b.find_line_go pos left right + 1 = b.num_lines ∨
        pos <
          ((linesOf b.toList).getD (b.find_line_go pos left right + 1) (0, 0)).1) := by
  intro d
  induction d using Nat.strong_induction_on with
  | _ d ih =>
    intro left right hd hlr hrn hstart hright
    rw [LineGapBuffer.find_line_go]
    by_cases hgt : right - left > 1
    · rw [if_pos hgt]
      dsimp only
      have hmid1 : 1 ≤ (right - left) / 2 :=
        (Nat.le_div_iff_mul_le (by omega)).mpr (by omega)
      have hmid2 : (right - left) / 2 < right - left :=
        Nat.div_lt_self (by omega) (by omega)
      have hmlt : left + (right - left) / 2 < b.num_lines := by omega
      have hgl := get_line_pairs b hWf hmlt
      by_cases hc : pos < (b.get_line (left + (right - left) / 2)).start
      · rw [if_pos hc]
        rw [hgl.1] at hc
        have h := ih (left + (right - left) / 2 - left) (by omega) left
          (left + (right - left) / 2) (by omega) (by omega) (by omega) hstart
          (Or.inr hc)
        exact ⟨h.1, by omega, h.2.2⟩
      · rw [if_neg hc]
        rw [hgl.1] at hc
        have h := ih (right - (left + (right - left) / 2)) (by omega)
          (left + (right - left) / 2) right (by omega) (by omega) hrn
          (by omega) hright
        exact ⟨by omega, h.2.1, h.2.2⟩
    · rw [if_neg hgt]
      have hre : right = left + 1 := by omega
      refine ⟨Nat.le_refl _, by omega, hstart, ?_⟩
      rw [← hre]
      exact hright

theorem find_line_spec {T : Type} [Inhabited T] (b : LineGapBuffer T)
    (hWf : Wf b) {pos : Nat} (hpos : pos ≤ b.len) :
    b.find_line pos < b.num_lines ∧
    (b.get_line (b.find_line pos)).start ≤ pos ∧
    pos ≤ (b.get_line (b.find_line pos)).end_ := by
  have hnum := num_lines_pos b hWf
  have hlen := num_lines_eq b hWf
  have hstart0 : ((linesOf b.toList).getD 0 (0, 0)).1 ≤ pos := by
    unfold linesOf
    rw [linesOfAux_head]
    omega
  have h := find_line_go_spec b hWf pos b.num_lines 0 b.num_lines
    (by omega) (by omega) (Nat.le_refl _) hstart0 (Or.inl rfl)
  unfold LineGapBuffer.find_line
  have hres : b.find_line_go pos 0 b.num_lines < b.num_lines := h.2.1
  have hgl := get_line_pairs b hWf hres
  refine ⟨hres, by rw [hgl.1]; exact h.2.2.1, ?_⟩
  rw [hgl.2]
  rcases h.2.2.2 with hlast | hnext
  · -- the found line is the last one: its end is the document length
    have hLlen : (linesOf b.toList).length = b.num_lines := hlen.symm
    have hne : linesOf b.toList ≠ [] := linesOfAux_ne_nil b.toList 0 0
    have hie : b.find_line_go pos 0 b.num_lines =
        (linesOf b.toList).length - 1 := by omega
    rw [hie, getD_length_sub_one _ _ hne]
    unfold linesOf
    rw [linesOfAux_last]
    rw [LineGapBuffer.length_toList]
    omega
  · -- otherwise the next line starts after pos
    by_cases hre : b.find_line_go pos 0 b.num_lines + 1 < b.num_lines
    · have hadj := linesOfAux_adj b.toList 0 0
        (b.find_line_go pos 0 b.num_lines) (Nat.le_refl _) (by
          simp only [linesOf] at hlen
          omega)
      simp only [linesOf] at hnext ⊢
      omega
    · have hoob : (linesOf b.toList).getD
          (b.find_line_go pos 0 b.num_lines + 1) (0, 0) = (0, 0) :=
        List.getD_eq_default _ _ (by omega)
      rw [hoob] at hnext
      simp at hnext

theorem find_line_last {T : Type} [Inhabited T] (b : LineGapBuffer T)
    (hWf : Wf b) : b.find_line b.len = b.num_lines - 1 := by
  have hnum := num_lines_pos b hWf
  have hlen := num_lines_eq b hWf
  have hall : ∀ i : Nat, i < b.num_lines →
      ((linesOf b.toList).getD i (0, 0)).1 ≤ b.len := by
    intro i hi
    have hmem : (linesOf b.toList).getD i (0, 0) ∈ linesOf b.toList := by
      rw [List.getD_eq_getElem _ _ (by omega)]
      exact List.getElem_mem _
    have h := linesOfAux_mem b.toList 0 0 (Nat.le_refl _) _ hmem
    rw [LineGapBuffer.length_toList] at h
    omega
  have hgo : ∀ (d left right : Nat), right - left = d → left < right →
      right ≤ b.num_lines → b.find_line_go b.len left right = right - 1 := by
    intro d
    induction d using Nat.strong_induction_on with
    | _ d ih =>
      intro left right hd hlr hrn
      rw [LineGapBuffer.find_line_go]
      by_cases hgt : right - left > 1
      · rw [if_pos hgt]
        dsimp only
        have hmid1 : 1 ≤ (right - left) / 2 :=
          (Nat.le_div_iff_mul_le (by omega)).mpr (by omega)
        have hmid2 : (right - left) / 2 < right - left :=
          Nat.div_lt_self (by omega) (by omega)
        have hmlt : left + (right - left) / 2 < b.num_lines := by omega
        have hgl := get_line_pairs b hWf hmlt
        have hns : ¬(b.len < (b.get_line (left + (right - left) / 2)).start) := by
          rw [hgl.1]
          have := hall (left + (right - left) / 2) hmlt
          omega
        rw [if_neg hns]
        exact ih (right - (left + (right - left) / 2)) (by omega)
          (left + (right - left) / 2) right (by omega) (by omega) hrn
      · rw [if_neg hgt]
        omega
  unfold LineGapBuffer.find_line
  exact hgo b.num_lines 0 b.num_lines (by omega) (by omega) (Nat.le_refl _)

theorem find_line_mono {T : Type} [Inhabited T] (b : LineGapBuffer T)
    (hWf : Wf b) {p q : Nat} (hpq : p ≤ q) (hq : q ≤ b.len) :
    b.find_line p ≤ b.find_line q := by
  have hp : p ≤ b.len := by omega
  have hsp := find_line_spec b hWf hp
  have hsq := find_line_spec b hWf hq
  by_contra hcon
  have hj : b.find_line q + 1 ≤ b.find_line p := by omega
  have hlen := num_lines_eq b hWf
  have hadj := linesOfAux_adj b.toList 0 0 (b.find_line q) (Nat.le_refl _)
    (by simp only [linesOf] at hlen; omega)
  have hmono := linesOfAux_start_add b.toList 0 0 (Nat.le_refl _)
    (b.find_line p - (b.find_line q + 1)) (b.find_line q + 1)
    (by simp only [linesOf] at hlen; omega)
  have hip := (get_line_pairs b hWf hsp.1).1
  have hiq := (get_line_pairs b hWf hsq.1).2
  have he : b.find_line q + 1 + (b.find_line p - (b.find_line q + 1)) =
      b.find_line p := by omega
  rw [he] at hmono
  rw [hip] at hsp
  rw [hiq] at hsq
  simp only [linesOf] at hsp hsq
  omega

theorem wf_new {T : Type} [Inhabited T] : Wf (LineGapBuffer.new (T := T)) := by
  constructor
  · show logicalPairs LineGapBuffer.new = linesOf (LineGapBuffer.new (T := T)).toList
    simp [logicalPairs, LineGapBuffer.new, LineGapBuffer.toList, linesOf,
      linesOfAux_nil, pairOf]
  · intro r hr
    simp [LineGapBuffer.new] at hr

/-! ### The effect of move_line_gap on the stored line records -/

theorem wf_left_bounds {T : Type} [Inhabited T] (b : LineGapBuffer T)
    (hWf : Wf b) : ∀ x ∈ b.lines_left, x.start ≤ b.len ∧ x.end_ ≤ b.len := by
  intro x hx
  have hpair : pairOf x ∈ logicalPairs b := by
    unfold logicalPairs
    exact List.mem_append_left _ (List.mem_map_of_mem _ hx)
  rw [hWf.1] at hpair
  simp only [linesOf] at hpair
  have h := linesOfAux_mem b.toList 0 0 (Nat.le_refl _) _ hpair
  rw [LineGapBuffer.length_toList] at h
  simp only [pairOf] at h
  exact ⟨by omega, by omega⟩

theorem move_line_gap_spec {T : Type} [Inhabited T] (b : LineGapBuffer T)
    (hWf : Wf b) {pos : Nat} (hpos : pos ≤ b.num_lines) :
    (b.move_line_gap pos).lines_left.map pairOf = (logicalPairs b).take pos ∧
    ((b.move_line_gap pos).lines_right.reverse).map (flipPair b.len) =
      (logicalPairs b).drop pos ∧
    (∀ r ∈ (b.move_line_gap pos).lines_right,
      r.start ≤ b.len ∧ r.end_ ≤ b.len) := by
  have hnum : b.num_lines = b.lines_left.length + b.lines_right.length := rfl
  have hlb := wf_left_bounds b hWf
  unfold LineGapBuffer.move_line_gap
  dsimp only
  by_cases hc : pos ≤ b.lines_left.length
  · rw [gapShiftLeft_spec _ pos _ _ hc]
    dsimp only
    rw [gapShiftRight_of_le _ pos _ _ (by simp; omega)]
    refine ⟨?_, ?_, ?_⟩
    · unfold logicalPairs
      rw [List.take_append_of_le_length (by simpa using hc)]
      rw [List.map_take]
    · unfold logicalPairs
      rw [List.drop_append_of_le_length (by simpa using hc)]
      rw [List.reverse_append, List.map_append]
      simp only [List.map_reverse, List.reverse_reverse, List.map_map]
      congr 1
      rw [← List.map_drop]
      apply List.map_congr_left
      intro x hx
      have hb := hlb x (List.drop_subset _ _ hx)
      simp [flipPair, pairOf]
      omega
    · intro r hr
      rcases List.mem_append.mp hr with h1 | h2
      · exact hWf.2 r h1
      · rw [List.mem_map] at h2
        obtain ⟨x, -, hxe⟩ := h2
        subst hxe
        exact ⟨Nat.sub_le _ _, Nat.sub_le _ _⟩
  · rw [gapShiftLeft_of_ge _ pos _ _ (by omega)]
    dsimp only
    rw [gapShiftRight_spec _ pos _ _ (by omega) (by omega)]
    dsimp only
    have hk : b.lines_right.length -
        (b.lines_left.length + b.lines_right.length - pos) =
        pos - b.lines_left.length := by omega
    have hidx : pos - (b.lines_left.map pairOf).length =
        pos - b.lines_left.length := by simp
    refine ⟨?_, ?_, ?_⟩
    · rw [List.map_append, List.map_map]
      have hcomp : (b.lines_right.drop
            (b.lines_left.length + b.lines_right.length - pos)).reverse.map
          ((pairOf (T := T)) ∘
            (fun li => { li with start := b.len - li.start,
                                 end_ := b.len - li.end_ })) =
          (b.lines_right.drop
            (b.lines_left.length + b.lines_right.length - pos)).reverse.map
            (flipPair b.len) := by
        apply List.map_congr_left
        intro x _
        simp [flipPair, pairOf]
      rw [hcomp]
      rw [List.reverse_drop, hk]
      rw [List.map_take]
      unfold logicalPairs
      rw [List.take_append_eq_append_take]
      rw [List.take_of_length_le (l := b.lines_left.map pairOf)
        (by simp; omega)]
      rw [hidx]
    · rw [List.reverse_take, hk]
      rw [List.map_drop]
      unfold logicalPairs
      rw [List.drop_append_eq_append_drop]
      rw [List.drop_of_length_le (l := b.lines_left.map pairOf)
        (by simp; omega)]
      rw [List.nil_append]
      rw [hidx]
    · intro r hr
      exact hWf.2 r (List.take_subset _ _ hr)

/-! ### Well-formedness is preserved by replace_slice -/

theorem replace_slice_wf {T : Type} [Inhabited T] (b : LineGapBuffer T)
    {s e : Nat} (t : List Char) (hWf : Wf b) (hs : s ≤ e) (he : e ≤ b.len) :
    Wf (b.replace_slice s e t) := by
  have hfs := find_line_spec b hWf (show s ≤ b.len by omega)
  have hfe := find_line_spec b hWf he
  have hmono := find_line_mono b hWf hs he
  have hlenL := num_lines_eq b hWf
  have hO : b.toList.length = b.len := LineGapBuffer.length_toList b
  -- positions of the edited lines
  have hrl_eq : (b.get_line (b.find_line s)).start =
      ((linesOf b.toList).getD (b.find_line s) (0, 0)).1 :=
    (get_line_pairs b hWf hfs.1).1
  have hem_eq : (b.get_line (b.find_line e)).end_ =
      ((linesOf b.toList).getD (b.find_line e) (0, 0)).2 :=
    (get_line_pairs b hWf hfe.1).2
  have hem_mem : (linesOf b.toList).getD (b.find_line e) (0, 0) ∈
      linesOf b.toList := by
    rw [List.getD_eq_getElem _ _ (by omega)]
    exact List.getElem_mem _
  have hem_le : ((linesOf b.toList).getD (b.find_line e) (0, 0)).2 ≤ b.len := by
    have h := linesOfAux_mem b.toList 0 0 (Nat.le_refl _) _ (by exact hem_mem)
    omega
  have hrl_le : (b.get_line (b.find_line s)).start ≤ s := hfs.2.1
  have hem_ge : e ≤ (b.get_line (b.find_line e)).end_ := hfe.2.2
  -- the new content
  have hNtl := LineGapBuffer.replace_slice_toList b t hs he
  have hNlen : (b.toList.take s ++ t ++ b.toList.drop e).length =
      s + t.length + (b.len - e) := by
    simp
    omega
  -- move_line_gap characterization
  have hmls := move_line_gap_spec b hWf
    (show b.find_line s ≤ b.num_lines by omega)
  have hPrlen : (b.move_line_gap (b.find_line s)).lines_right.length =
      (linesOf b.toList).length - b.find_line s := by
    have h := congrArg List.length hmls.2.1
    rw [hWf.1] at h
    simpa using h
  -- the cleaned unfolding of replace_slice
  have hunf : b.replace_slice s e t =
      LineGapBuffer.rescan
        { chars_left := (b.move_char_gap s).chars_left ++ t,
          chars_right := (b.move_char_gap s).chars_right.take
            ((b.move_char_gap s).chars_right.length - (e - s)),
          lines_left := (b.move_line_gap (b.find_line s)).lines_left,
          lines_right := (b.move_line_gap (b.find_line s)).lines_right.take
            ((b.move_line_gap (b.find_line s)).lines_right.length
              - (b.find_line e + 1 - b.find_line s)) }
        ((b.get_line (b.find_line e)).end_ - (e - s) + t.length)
        ((b.get_line (b.find_line s)).start)
        ((b.get_line (b.find_line s)).start) := by
    rw [LineGapBuffer.replace_slice_unfold]
    have h11 : b.find_line e + 1 - 1 = b.find_line e := by omega
    rw [h11]
  -- the characters of the buffer fed to the rescan
  have hB5tl : (LineGapBuffer.mk
      ((b.move_char_gap s).chars_left ++ t)
      ((b.move_char_gap s).chars_right.take
        ((b.move_char_gap s).chars_right.length - (e - s)))
      ((b.move_line_gap (b.find_line s)).lines_left)
      ((b.move_line_gap (b.find_line s)).lines_right.take
        ((b.move_line_gap (b.find_line s)).lines_right.length
          - (b.find_line e + 1 - b.find_line s)))).toList =
      b.toList.take s ++ t ++ b.toList.drop e := by
    have h := hNtl
    rw [hunf, LineGapBuffer.rescan_toList] at h
    exact h
  have hB5len : (LineGapBuffer.mk
      ((b.move_char_gap s).chars_left ++ t)
      ((b.move_char_gap s).chars_right.take
        ((b.move_char_gap s).chars_right.length - (e - s)))
      ((b.move_line_gap (b.find_line s)).lines_left)
      ((b.move_line_gap (b.find_line s)).lines_right.take
        ((b.move_line_gap (b.find_line s)).lines_right.length
          - (b.find_line e + 1 - b.find_line s)))).len =
      s + t.length + (b.len - e) := by
    rw [← LineGapBuffer.length_toList, hB5tl, hNlen]
  -- bounds on the rescan region
  have hrr_ge : (b.get_line (b.find_line s)).start ≤
      (b.get_line (b.find_line e)).end_ - (e - s) + t.length := by omega
  have hrr_le : (b.get_line (b.find_line e)).end_ - (e - s) + t.length ≤
      s + t.length + (b.len - e) := by
    rw [hem_eq]
    omega
  -- the full characterization of the final buffer
  have hF : b.replace_slice s e t = LineGapBuffer.mk
      ((b.move_char_gap s).chars_left ++ t)
      ((b.move_char_gap s).chars_right.take
        ((b.move_char_gap s).chars_right.length - (e - s)))
      ((b.move_line_gap (b.find_line s)).lines_left ++
        (linesOfAux (b.get_line (b.find_line s)).start
          (b.get_line (b.find_line s)).start
          (((b.toList.take s ++ t ++ b.toList.drop e).drop
              (b.get_line (b.find_line s)).start).take
            ((b.get_line (b.find_line e)).end_ - (e - s) + t.length -
              (b.get_line (b.find_line s)).start))).map toLine)
      ((b.move_line_gap (b.find_line s)).lines_right.take
        ((b.move_line_gap (b.find_line s)).lines_right.length
          - (b.find_line e + 1 - b.find_line s))) := by
    rw [hunf]
    rw [LineGapBuffer.rescan_spec
      ((b.get_line (b.find_line e)).end_ - (e - s) + t.length -
        (b.get_line (b.find_line s)).start)
      _ _ _ _ (by rw [hB5len]; exact hrr_le) (by omega)]
    rw [hB5tl]
  -- linesOfAux-normalized versions of the positional facts
  have hrl_eq' : (b.get_line (b.find_line s)).start =
      ((linesOfAux 0 0 b.toList).getD (b.find_line s) (0, 0)).1 := hrl_eq
  have hem_eq' : (b.get_line (b.find_line e)).end_ =
      ((linesOfAux 0 0 b.toList).getD (b.find_line e) (0, 0)).2 := hem_eq
  have hlenL' : b.num_lines = (linesOfAux 0 0 b.toList).length := hlenL
  have hem_le' : ((linesOfAux 0 0 b.toList).getD (b.find_line e) (0, 0)).2 ≤
      b.len := hem_le
  -- pieces of the stored line structure of the final buffer
  have hA : (b.move_line_gap (b.find_line s)).lines_left.map pairOf =
      (linesOfAux 0 0 b.toList).take (b.find_line s) := by
    have h := hmls.1
    rw [hWf.1] at h
    exact h
  have hPrrev : (b.move_line_gap (b.find_line s)).lines_right.reverse.map
      (flipPair b.len) = (linesOfAux 0 0 b.toList).drop (b.find_line s) := by
    have h := hmls.2.1
    rw [hWf.1] at h
    exact h
  have hPrlen' : (b.move_line_gap (b.find_line s)).lines_right.length =
      (linesOfAux 0 0 b.toList).length - b.find_line s := hPrlen
  have hPrT_rev : ((b.move_line_gap (b.find_line s)).lines_right.take
      ((b.move_line_gap (b.find_line s)).lines_right.length
        - (b.find_line e + 1 - b.find_line s))).reverse =
      (b.move_line_gap (b.find_line s)).lines_right.reverse.drop
        (b.find_line e + 1 - b.find_line s) := by
    rw [List.reverse_take]
    congr 1
    omega
  have hCn : ((b.move_line_gap (b.find_line s)).lines_right.take
      ((b.move_line_gap (b.find_line s)).lines_right.length
        - (b.find_line e + 1 - b.find_line s))).reverse.map
        (flipPair b.len) =
      (linesOfAux 0 0 b.toList).drop (b.find_line e + 1) := by
    rw [hPrT_rev, List.map_drop, hPrrev, List.drop_drop]
    congr 1
    omega
  -- every line after the edited ones starts after the end of the edited span
  have hsuffix_mem : b.find_line e + 1 < (linesOfAux 0 0 b.toList).length →
      ∀ q ∈ (linesOfAux 0 0 b.toList).drop (b.find_line e + 1),
        ((linesOfAux 0 0 b.toList).getD (b.find_line e) (0, 0)).2 + 1 ≤ q.1 ∧
          q.1 ≤ q.2 := by
    intro hlt q hq
    obtain ⟨-, -, -, -, c5⟩ := linesOfAux_cut b.toList 0 0 (b.find_line e) _
      (Nat.le_refl _) hlt rfl
    rw [c5] at hq
    have h := linesOfAux_mem _ _ _ (Nat.le_refl _) q hq
    exact ⟨h.1, h.2.1⟩
  -- the stored right-side records, reinterpreted at the new length
  have hC' : ((b.move_line_gap (b.find_line s)).lines_right.take
      ((b.move_line_gap (b.find_line s)).lines_right.length
        - (b.find_line e + 1 - b.find_line s))).reverse.map
        (flipPair (s + t.length + (b.len - e))) =
      ((linesOfAux 0 0 b.toList).drop (b.find_line e + 1)).map
        (fun q : Nat × Nat =>
          (q.1 - (e - s) + t.length, q.2 - (e - s) + t.length)) := by
    by_cases hlt : b.find_line e + 1 < (linesOfAux 0 0 b.toList).length
    · have hcong : ((b.move_line_gap (b.find_line s)).lines_right.take
          ((b.move_line_gap (b.find_line s)).lines_right.length
            - (b.find_line e + 1 - b.find_line s))).reverse.map
            (flipPair (s + t.length + (b.len - e))) =
          ((b.move_line_gap (b.find_line s)).lines_right.take
          ((b.move_line_gap (b.find_line s)).lines_right.length
            - (b.find_line e + 1 - b.find_line s))).reverse.map
            ((fun q : Nat × Nat =>
              (q.1 - (e - s) + t.length, q.2 - (e - s) + t.length)) ∘
              flipPair b.len) := by
        apply List.map_congr_left
        intro x hx
        have hxb : x.start ≤ b.len ∧ x.end_ ≤ b.len := by
          apply hmls.2.2
          exact List.take_subset _ _ (List.mem_reverse.mp hx)
        have hfm : flipPair b.len x ∈
            (linesOfAux 0 0 b.toList).drop (b.find_line e + 1) := by
          rw [← hCn]
          exact List.mem_map_of_mem _ hx
        have hq := hsuffix_mem hlt _ hfm
        have hemge : e ≤ ((linesOfAux 0 0 b.toList).getD
            (b.find_line e) (0, 0)).2 := by
          rw [← hem_eq']
          exact hem_ge
        simp only [flipPair, Function.comp_apply] at hq ⊢
        simp only [Prod.mk.injEq]
        constructor <;> omega
      rw [hcong, ← List.map_map, hCn]
    · have hdnil : (linesOfAux 0 0 b.toList).drop (b.find_line e + 1) = [] :=
        List.drop_of_length_le (by omega)
      have hnil : ((b.move_line_gap (b.find_line s)).lines_right.take
          ((b.move_line_gap (b.find_line s)).lines_right.length
            - (b.find_line e + 1 - b.find_line s))).reverse = [] := by
        have h := hCn
        rw [hdnil] at h
        exact List.map_eq_nil_iff.mp h
      rw [hnil, hdnil]
      simp
  -- prefix of the new content agrees with the old one
  have hNtake : ∀ x : Nat, x ≤ s →
      (b.toList.take s ++ t ++ b.toList.drop e).take x = b.toList.take x := by
    intro x hx
    rw [List.append_assoc]
    rw [List.take_append_eq_append_take]
    rw [List.take_take]
    have h1 : min x s = x := by omega
    have h2 : x - (b.toList.take s).length = 0 := by
      simp
      omega
    rw [h1, h2]
    simp
  -- split the new line partition at the start of the rescanned region
  have hsplit1 : linesOfAux 0 0 (b.toList.take s ++ t ++ b.toList.drop e) =
      (linesOfAux 0 0 b.toList).take (b.find_line s) ++
        linesOfAux (b.get_line (b.find_line s)).start
          (b.get_line (b.find_line s)).start
          ((b.toList.take s ++ t ++ b.toList.drop e).drop
            (b.get_line (b.find_line s)).start) := by
    by_cases hll0 : b.find_line s = 0
    · have hrl0 : (b.get_line (b.find_line s)).start = 0 := by
        rw [hrl_eq', hll0]
        exact linesOfAux_head b.toList 0 0 (0, 0)
      rw [hrl0, hll0]
      simp
    · have hi2 : (b.find_line s - 1) + 1 < (linesOfAux 0 0 b.toList).length := by
        have h1 := hfs.1
        omega
      obtain ⟨-, c2, c3, c4, -⟩ := linesOfAux_cut b.toList 0 0
        (b.find_line s - 1) _ (Nat.le_refl _) hi2 rfl
      simp only [Nat.sub_zero] at c2 c3 c4
      have hadj := linesOfAux_adj b.toList 0 0 (b.find_line s - 1)
        (Nat.le_refl _) hi2
      have h1 : b.find_line s - 1 + 1 = b.find_line s := by omega
      rw [h1] at hadj c4
      have hrl_adj : (b.get_line (b.find_line s)).start =
          ((linesOfAux 0 0 b.toList).getD (b.find_line s - 1) (0, 0)).2 + 1 := by
        rw [hrl_eq']
        exact hadj
      rw [hrl_adj]
      have hE0lt : ((linesOfAux 0 0 b.toList).getD (b.find_line s - 1)
          (0, 0)).2 < b.toList.length := c2
      have hE1s : ((linesOfAux 0 0 b.toList).getD (b.find_line s - 1)
          (0, 0)).2 + 1 ≤ s := by
        rw [← hadj, ← hrl_eq']
        exact hrl_le
      have hgetnl : b.toList[((linesOfAux 0 0 b.toList).getD (b.find_line s - 1)
          (0, 0)).2] = '\n' := by
        rw [← List.getD_eq_getElem _ default hE0lt]
        exact c3
      have hNd : (b.toList.take s ++ t ++ b.toList.drop e) =
          b.toList.take ((linesOfAux 0 0 b.toList).getD (b.find_line s - 1)
            (0, 0)).2 ++ '\n' ::
            ((b.toList.take s ++ t ++ b.toList.drop e).drop
              (((linesOfAux 0 0 b.toList).getD (b.find_line s - 1)
                (0, 0)).2 + 1)) := by
        conv_lhs => rw [← List.take_append_drop
          (((linesOfAux 0 0 b.toList).getD (b.find_line s - 1) (0, 0)).2 + 1)
          (b.toList.take s ++ t ++ b.toList.drop e)]
        rw [List.append_cons]
        congr 1
        rw [hNtake _ hE1s]
        rw [List.take_succ]
        rw [List.getElem?_eq_getElem hE0lt]
        rw [hgetnl]
        rfl
      conv_lhs => rw [hNd]
      rw [linesOfAux_append_newline]
      have hlentake : (b.toList.take ((linesOfAux 0 0 b.toList).getD
          (b.find_line s - 1) (0, 0)).2).length =
          ((linesOfAux 0 0 b.toList).getD (b.find_line s - 1) (0, 0)).2 := by
        rw [List.length_take]
        omega
      rw [hlentake, c4]
      have hz : 0 + ((linesOfAux 0 0 b.toList).getD (b.find_line s - 1)
          (0, 0)).2 + 1 =
          ((linesOfAux 0 0 b.toList).getD (b.find_line s - 1) (0, 0)).2 + 1 := by
        omega
      rw [hz]
  -- split the rescanned region from the kept suffix lines
  have hsplit2 : linesOfAux (b.get_line (b.find_line s)).start
        (b.get_line (b.find_line s)).start
        ((b.toList.take s ++ t ++ b.toList.drop e).drop
          (b.get_line (b.find_line s)).start) =
      linesOfAux (b.get_line (b.find_line s)).start
        (b.get_line (b.find_line s)).start
        (((b.toList.take s ++ t ++ b.toList.drop e).drop
            (b.get_line (b.find_line s)).start).take
          ((b.get_line (b.find_line e)).end_ - (e - s) + t.length -
            (b.get_line (b.find_line s)).start)) ++
        ((linesOfAux 0 0 b.toList).drop (b.find_line e + 1)).map
          (fun q : Nat × Nat =>
            (q.1 - (e - s) + t.length, q.2 - (e - s) + t.length)) := by
    have hNdroplen : ((b.toList.take s ++ t ++ b.toList.drop e).drop
        (b.get_line (b.find_line s)).start).length =
        s + t.length + (b.len - e) - (b.get_line (b.find_line s)).start := by
      rw [List.length_drop, hNlen]
    by_cases hlt : b.find_line e + 1 < (linesOfAux 0 0 b.toList).length
    · obtain ⟨-, c2, c3, -, c5⟩ := linesOfAux_cut b.toList 0 0
        (b.find_line e) _ (Nat.le_refl _) hlt rfl
      simp only [Nat.sub_zero] at c2 c3 c5
      have hgetnl : b.toList[((linesOfAux 0 0 b.toList).getD (b.find_line e)
          (0, 0)).2] = '\n' := by
        rw [← List.getD_eq_getElem _ default c2]
        exact c3
      -- the new content after the rescanned region is the old content after
      -- the end of the edited line
      have hdroprr : (b.toList.take s ++ t ++ b.toList.drop e).drop
          ((b.get_line (b.find_line e)).end_ - (e - s) + t.length) =
          b.toList.drop ((linesOfAux 0 0 b.toList).getD (b.find_line e)
            (0, 0)).2 := by
        rw [List.drop_append_eq_append_drop]
        have hl1 : (b.toList.take s ++ t).length = s + t.length := by
          simp
          omega
        rw [List.drop_of_length_le (by
          rw [hl1]
          rw [hem_eq']
          omega)]
        rw [List.nil_append, hl1]
        rw [List.drop_drop]
        congr 1
        rw [hem_eq']
        omega
      have hObreak : b.toList.drop ((linesOfAux 0 0 b.toList).getD
          (b.find_line e) (0, 0)).2 =
          '\n' :: b.toList.drop (((linesOfAux 0 0 b.toList).getD
            (b.find_line e) (0, 0)).2 + 1) := by
        rw [List.drop_eq_getElem_cons c2]
        rw [hgetnl]
      have hmid : (b.toList.take s ++ t ++ b.toList.drop e).drop
          (b.get_line (b.find_line s)).start =
          ((b.toList.take s ++ t ++ b.toList.drop e).drop
            (b.get_line (b.find_line s)).start).take
            ((b.get_line (b.find_line e)).end_ - (e - s) + t.length -
              (b.get_line (b.find_line s)).start) ++
          '\n' :: b.toList.drop (((linesOfAux 0 0 b.toList).getD
            (b.find_line e) (0, 0)).2 + 1) := by
        conv_lhs => rw [← List.take_append_drop
          ((b.get_line (b.find_line e)).end_ - (e - s) + t.length -
            (b.get_line (b.find_line s)).start)
          ((b.toList.take s ++ t ++ b.toList.drop e).drop
            (b.get_line (b.find_line s)).start)]
        congr 1
        rw [List.drop_drop]
        have hz : (b.get_line (b.find_line s)).start +
            ((b.get_line (b.find_line e)).end_ - (e - s) + t.length -
              (b.get_line (b.find_line s)).start) =
            (b.get_line (b.find_line e)).end_ - (e - s) + t.length := by
          omega
        rw [hz, hdroprr, hObreak]
      conv_lhs => rw [hmid]
      rw [linesOfAux_append_newline]
      have hemge : e ≤ ((linesOfAux 0 0 b.toList).getD
          (b.find_line e) (0, 0)).2 := by
        rw [← hem_eq']
        exact hem_ge
      have hlt2 : (b.get_line (b.find_line s)).start +
          (((b.toList.take s ++ t ++ b.toList.drop e).drop
            (b.get_line (b.find_line s)).start).take
            ((b.get_line (b.find_line e)).end_ - (e - s) + t.length -
              (b.get_line (b.find_line s)).start)).length + 1 =
          (b.get_line (b.find_line e)).end_ - (e - s) + t.length + 1 := by
        rw [List.length_take, hNdroplen]
        rw [hem_eq']
        omega
      rw [hlt2]
      congr 1
      rw [c5]
      rw [linesOfAux_abs (b.toList.drop (((linesOfAux 0 0 b.toList).getD
          (b.find_line e) (0, 0)).2 + 1))]
      rw [linesOfAux_abs (b.toList.drop (((linesOfAux 0 0 b.toList).getD
          (b.find_line e) (0, 0)).2 + 1))]
      rw [List.map_map]
      apply List.map_congr_left
      intro q _
      simp only [Function.comp_apply, Prod.mk.injEq]
      rw [hem_eq']
      constructor <;> omega
    · have hlast : ((linesOfAux 0 0 b.toList).getD (b.find_line e) (0, 0)).2 =
          b.len := by
        have hle : b.find_line e = (linesOfAux 0 0 b.toList).length - 1 := by
          have h1 := hfe.1
          omega
        rw [hle]
        rw [getD_length_sub_one _ _ (linesOfAux_ne_nil b.toList 0 0)]
        rw [linesOfAux_last]
        rw [LineGapBuffer.length_toList]
        omega
      have hdnil : (linesOfAux 0 0 b.toList).drop (b.find_line e + 1) = [] :=
        List.drop_of_length_le (by omega)
      rw [hdnil]
      have htk : ((b.toList.take s ++ t ++ b.toList.drop e).drop
          (b.get_line (b.find_line s)).start).take
          ((b.get_line (b.find_line e)).end_ - (e - s) + t.length -
            (b.get_line (b.find_line s)).start) =
          (b.toList.take s ++ t ++ b.toList.drop e).drop
            (b.get_line (b.find_line s)).start := by
        apply List.take_of_length_le
        rw [hNdroplen]
        rw [hem_eq', hlast]
        omega
      rw [htk]
      simp
  -- assemble
  rw [hF]
  rw [LineGapBuffer.toList_mk] at hB5tl
  have hB5len' : ((b.move_char_gap s).chars_left ++ t).length +
      ((b.move_char_gap s).chars_right.take
        ((b.move_char_gap s).chars_right.length - (e - s))).length =
      s + t.length + (b.len - e) := hB5len
  constructor
  · show List.map pairOf ((b.move_line_gap (b.find_line s)).lines_left ++
        List.map toLine (linesOfAux (b.get_line (b.find_line s)).start
          (b.get_line (b.find_line s)).start
          (((b.toList.take s ++ t ++ b.toList.drop e).drop
              (b.get_line (b.find_line s)).start).take
            ((b.get_line (b.find_line e)).end_ - (e - s) + t.length -
              (b.get_line (b.find_line s)).start)))) ++
      List.map (flipPair (((b.move_char_gap s).chars_left ++ t).length +
          ((b.move_char_gap s).chars_right.take
            ((b.move_char_gap s).chars_right.length - (e - s))).length))
        ((b.move_line_gap (b.find_line s)).lines_right.take
          ((b.move_line_gap (b.find_line s)).lines_right.length
            - (b.find_line e + 1 - b.find_line s))).reverse =
      linesOf ((b.move_char_gap s).chars_left ++ t ++
        ((b.move_char_gap s).chars_right.take
          ((b.move_char_gap s).chars_right.length - (e - s))).reverse)
    rw [hB5tl]
    rw [hB5len']
    show _ = linesOfAux 0 0 (b.toList.take s ++ t ++ b.toList.drop e)
    rw [List.map_append]
    rw [hA]
    have hscanned : ((linesOfAux (b.get_line (b.find_line s)).start
        (b.get_line (b.find_line s)).start
        (((b.toList.take s ++ t ++ b.toList.drop e).drop
            (b.get_line (b.find_line s)).start).take
          ((b.get_line (b.find_line e)).end_ - (e - s) + t.length -
            (b.get_line (b.find_line s)).start))).map
          (toLine (T := T))).map pairOf =
        linesOfAux (b.get_line (b.find_line s)).start
          (b.get_line (b.find_line s)).start
          (((b.toList.take s ++ t ++ b.toList.drop e).drop
              (b.get_line (b.find_line s)).start).take
            ((b.get_line (b.find_line e)).end_ - (e - s) + t.length -
              (b.get_line (b.find_line s)).start)) := by
      rw [List.map_map]
      have hid : (pairOf (T := T)) ∘ toLine = id := by
        funext q
        rfl
      rw [hid, List.map_id]
    rw [hscanned]
    rw [hC']
    rw [hsplit1, hsplit2]
    rw [List.append_assoc]
  · intro r hr
    by_cases hlt : b.find_line e + 1 < (linesOfAux 0 0 b.toList).length
    · have hrb : r.start ≤ b.len ∧ r.end_ ≤ b.len := by
        apply hmls.2.2
        exact List.take_subset _ _ hr
      have hfm : flipPair b.len r ∈
          (linesOfAux 0 0 b.toList).drop (b.find_line e + 1) := by
        rw [← hCn]
        exact List.mem_map_of_mem _ (List.mem_reverse.mpr hr)
      have hq := hsuffix_mem hlt _ hfm
      simp only [flipPair] at hq
      have hemge : e ≤ ((linesOfAux 0 0 b.toList).getD
          (b.find_line e) (0, 0)).2 := by
        rw [← hem_eq']
        exact hem_ge
      have hlen4 : (LineGapBuffer.mk
          ((b.move_char_gap s).chars_left ++ t)
          ((b.move_char_gap s).chars_right.take
            ((b.move_char_gap s).chars_right.length - (e - s)))
          ((b.move_line_gap (b.find_line s)).lines_left ++
            (linesOfAux (b.get_line (b.find_line s)).start
              (b.get_line (b.find_line s)).start
              (((b.toList.take s ++ t ++ b.toList.drop e).drop
                  (b.get_line (b.find_line s)).start).take
                ((b.get_line (b.find_line e)).end_ - (e - s) + t.length -
                  (b.get_line (b.find_line s)).start))).map toLine)
          ((b.move_line_gap (b.find_line s)).lines_right.take
            ((b.move_line_gap (b.find_line s)).lines_right.length
              - (b.find_line e + 1 - b.find_line s)))).len =
          s + t.length + (b.len - e) := hB5len
      rw [hlen4]
      omega
    · have hPrT_nil : (b.move_line_gap (b.find_line s)).lines_right.take
          ((b.move_line_gap (b.find_line s)).lines_right.length
            - (b.find_line e + 1 - b.find_line s)) = [] := by
        have hz : (b.move_line_gap (b.find_line s)).lines_right.length
            - (b.find_line e + 1 - b.find_line s) = 0 := by
          have h1 := hfe.1
          omega
        rw [hz]
        exact List.take_zero _
      rw [hPrT_nil] at hr
      cases hr

/-! ### Reachable buffers are well-formed; claims C4, C5, C9 -/

theorem breach_wf {T : Type} [Inhabited T] {b : LineGapBuffer T}
    (h : BReach b) : Wf b := by
  induction h with
  | base => exact wf_new
  | step hb hs he ih => exact replace_slice_wf _ _ ih hs he

/-- C4: for every buffer reachable from `new()` by `replace_slice` calls and
every position `p` in `[0, len]`, `find_line(p)` returns an index `i` with
`get_line(i).start <= p <= get_line(i).end` (and `i < num_lines()`), and for
`p == len` it returns the last line index `num_lines() - 1`. -/
theorem claim_C4 {T : Type} [Inhabited T] (b : LineGapBuffer T)
    (hb : BReach b) {p : Nat} (hp : p ≤ b.len) :
    ((b.get_line (b.find_line p)).start ≤ p ∧
      p ≤ (b.get_line (b.find_line p)).end_ ∧
      b.find_line p < b.num_lines) ∧
    (p = b.len → b.find_line p = b.num_lines - 1) := by
  have hWf := breach_wf hb
  have h := find_line_spec b hWf hp
  refine ⟨⟨h.2.1, h.2.2, h.1⟩, ?_⟩
  intro hpe
  subst hpe
  exact find_line_last b hWf

theorem claim_C4_witness :
    (0 ≤ (LineGapBuffer.new (T := Unit)).len) ∧
    ((((LineGapBuffer.new (T := Unit)).get_line
        ((LineGapBuffer.new (T := Unit)).find_line 0)).start ≤ 0 ∧
      0 ≤ ((LineGapBuffer.new (T := Unit)).get_line
        ((LineGapBuffer.new (T := Unit)).find_line 0)).end_ ∧
      (LineGapBuffer.new (T := Unit)).find_line 0 <
        (LineGapBuffer.new (T := Unit)).num_lines) ∧
     (0 = (LineGapBuffer.new (T := Unit)).len →
       (LineGapBuffer.new (T := Unit)).find_line 0 =
         (LineGapBuffer.new (T := Unit)).num_lines - 1)) :=
  ⟨by decide, claim_C4 LineGapBuffer.new BReach.base (by decide)⟩

/-- C5: for every reachable buffer state and every text `t`, performing
`replace_slice(0, len, t)` and then `slice_string(0, len)` returns exactly
`t`. -/
theorem claim_C5 {T : Type} [Inhabited T] (b : LineGapBuffer T)
    (hb : BReach b) (t : List Char) :
    (b.replace_slice 0 b.len t).slice_string 0
      (b.replace_slice 0 b.len t).len = t := by
  rw [LineGapBuffer.slice_string_zero_len]
  rw [LineGapBuffer.replace_slice_toList b t (Nat.zero_le _) (Nat.le_refl _)]
  rw [List.take_zero, List.drop_of_length_le
    (le_of_eq (LineGapBuffer.length_toList b))]
  simp

theorem claim_C5_witness :
    ((LineGapBuffer.new (T := Unit)).replace_slice 0
      (LineGapBuffer.new (T := Unit)).len ['a', '\n', 'b']).slice_string 0
      ((LineGapBuffer.new (T := Unit)).replace_slice 0
        (LineGapBuffer.new (T := Unit)).len ['a', '\n', 'b']).len =
      ['a', '\n', 'b'] :=
  claim_C5 LineGapBuffer.new BReach.base ['a', '\n', 'b']

/-- C9: for every buffer reachable from `new()` by `replace_slice` calls,
`num_lines()` equals one plus the number of newline characters in the
document; in particular `num_lines() >= 1` even when the document is
empty. -/
theorem claim_C9 {T : Type} [Inhabited T] (b : LineGapBuffer T)
    (hb : BReach b) :
    b.num_lines = b.toList.count '\n' + 1 ∧ 1 ≤ b.num_lines := by
  have hWf := breach_wf hb
  have h := num_lines_eq b hWf
  simp only [linesOf] at h
  rw [length_linesOfAux] at h
  omega

theorem claim_C9_witness :
    (LineGapBuffer.new (T := Unit)).num_lines =
      (LineGapBuffer.new (T := Unit)).toList.count '\n' + 1 ∧
    1 ≤ (LineGapBuffer.new (T := Unit)).num_lines :=
  claim_C9 LineGapBuffer.new BReach.base

/-! ### Slice edits at the content level -/

theorem slice_string_sliceOf (b : LineGapBuffer Unit) {s e : Nat}
    (he : e ≤ b.len) : b.slice_string s e = sliceOf b.toList s e := by
  rw [LineGapBuffer.slice_string_eq b he]
  rfl

theorem applyEdit_length (c : List Char) (ed : SliceEdit)
    (h1 : ed.start ≤ ed.end_) (h2 : ed.end_ ≤ c.length) :
    (applyEdit c ed).length =
      ed.start + ed.old_text.length + (c.length - ed.end_) := by
  simp [applyEdit]
  omega

theorem applyEdit_invOf (c : List Char) (ed : SliceEdit)
    (h1 : ed.start ≤ ed.end_) (h2 : ed.end_ ≤ c.length) :
    applyEdit (applyEdit c ed) (invOf c ed) = c := by
  obtain ⟨o, a, e⟩ := ed
  simp only at h1 h2
  simp only [applyEdit, invOf, sliceOf]
  have hta : (c.take a).length = a := by
    rw [List.length_take]
    omega
  have h3 : (c.take a ++ o ++ c.drop e).take a = c.take a := by
    rw [List.append_assoc, List.take_append_of_le_length (le_of_eq hta.symm)]
    rw [List.take_of_length_le (le_of_eq hta)]
  have h4 : (c.take a ++ o ++ c.drop e).drop (a + o.length) = c.drop e := by
    rw [List.drop_left' (by rw [List.length_append, hta])]
  rw [h3, h4]
  rw [← List.drop_take]
  rw [show c.take a = (c.take e).take a by
    rw [List.take_take]
    congr 1
    omega]
  rw [List.take_append_drop, List.take_append_drop]

theorem invOf_applyEdit (c : List Char) (ed : SliceEdit)
    (h1 : ed.start ≤ ed.end_) (h2 : ed.end_ ≤ c.length) :
    invOf (applyEdit c ed) (invOf c ed) = ed := by
  obtain ⟨o, a, e⟩ := ed
  simp only at h1 h2
  simp only [applyEdit, invOf, sliceOf]
  have hta : (c.take a).length = a := by
    rw [List.length_take]
    omega
  simp only [SliceEdit.mk.injEq]
  refine ⟨?_, trivial, ?_⟩
  · rw [List.append_assoc, List.drop_append_of_le_length (le_of_eq hta.symm)]
    rw [List.drop_of_length_le (le_of_eq hta)]
    rw [List.nil_append]
    rw [show a + o.length - a = o.length by omega]
    rw [List.take_left]
  · rw [List.length_take, List.length_drop]
    omega

theorem sliceOf_applyEdit (c : List Char) (ed : SliceEdit)
    (h1 : ed.start ≤ c.length) :
    sliceOf (applyEdit c ed) ed.start (ed.start + ed.old_text.length) =
      ed.old_text := by
  obtain ⟨o, a, e⟩ := ed
  simp only at h1
  simp only [applyEdit, sliceOf]
  have hta : (c.take a).length = a := by
    rw [List.length_take]
    omega
  rw [List.append_assoc, List.drop_append_of_le_length (le_of_eq hta.symm)]
  rw [List.drop_of_length_le (le_of_eq hta)]
  rw [List.nil_append]
  rw [show a + o.length - a = o.length by omega]
  rw [List.take_left]

theorem rsgeDoc_eq_none (doc : LineGapBuffer Unit) {a e : Nat}
    {t : List Char} (ht : doc.slice_string a e = t) :
    rsgeDoc doc a e t = (none, doc) := by
  unfold rsgeDoc
  rw [if_pos ht]

theorem rsgeDoc_revert (doc : LineGapBuffer Unit) (ed : SliceEdit)
    (h1 : ed.start ≤ ed.end_) (h2 : ed.end_ ≤ doc.len)
    (h3 : sliceOf doc.toList ed.start ed.end_ ≠ ed.old_text) :
    rsgeDoc doc ed.start ed.end_ ed.old_text =
      (some (invOf doc.toList ed),
       doc.replace_slice ed.start ed.end_ ed.old_text) ∧
    (doc.replace_slice ed.start ed.end_ ed.old_text).toList =
      applyEdit doc.toList ed := by
  have hss := slice_string_sliceOf doc h2 (s := ed.start)
  constructor
  · unfold rsgeDoc
    rw [if_neg (by rw [hss]; exact h3)]
    rw [hss]
    rfl
  · rw [LineGapBuffer.replace_slice_toList doc ed.old_text h1 h2]
    rfl

/-! ### Claims C2, C6, C8, C10 -/

/-- C2 counterexample: with the cursor (and selection) at the end of a
nonempty document, `del()` is a no-op while `right()` followed by
`backspace()` deletes the last character, so the two disagree on the
resulting document content. -/
theorem claim_C2_counterexample :
    stateA.cursor_pos = stateA.selection_pos ∧
    stateA.cursor_pos = stateA.document.len ∧
    (ViewState.del unitShaper stateA).content = ['a'] ∧
    (ViewState.backspace unitShaper
      (ViewState.right unitShaper stateA)).content = [] := by
  refine ⟨rfl, rfl, ?_, ?_⟩
  · have hdel : ViewState.del unitShaper stateA = stateA := by
      unfold ViewState.del
      rw [if_neg (by decide), if_neg (by decide)]
    rw [hdel]
    decide
  · have hr : ViewState.right unitShaper stateA = stateA := by
      unfold ViewState.right
      rw [if_neg (by decide)]
    rw [hr]
    unfold ViewState.backspace
    rw [if_neg (by decide), if_pos (by decide)]
    dsimp only [stateA, ViewState.refresh_anchor_x,
      ViewState.ensure_cursor_on_screen, ViewState.clear_selection,
      ViewState.replace_slice, ViewState.replace_slice_and_get_edit,
      ViewState.content]
    rw [show rsgeDoc bufA (1 - 1) (1 - 1 + 1) [] =
        (some { old_text := bufA.slice_string (1 - 1) (1 - 1 + 1),
                start := 1 - 1, end_ := 1 - 1 + List.length [] },
         bufA.replace_slice (1 - 1) (1 - 1 + 1) []) from by
      unfold rsgeDoc
      rw [if_neg (by decide)]]
    dsimp only
    rw [LineGapBuffer.slice_string_zero_len]
    rw [LineGapBuffer.replace_slice_toList bufA []
      (by omega) (by decide)]
    decide

/-- C2 (amended): with no active selection and the cursor strictly before the
end of the document, `del()` and `right()` followed by `backspace()` agree on
document content, cursor position and selection position. -/
theorem claim_C2 {V : Type} (sh : Shaper V) (s : ViewState V)
    (hsel : s.selection_pos = s.cursor_pos)
    (hlt : s.cursor_pos < s.document.len) :
    (ViewState.del sh s).content =
      (ViewState.backspace sh (ViewState.right sh s)).content ∧
    (ViewState.del sh s).cursor_pos =
      (ViewState.backspace sh (ViewState.right sh s)).cursor_pos ∧
    (ViewState.del sh s).selection_pos =
      (ViewState.backspace sh (ViewState.right sh s)).selection_pos := by
  have hne : ¬(s.selection_pos ≠ s.cursor_pos) := by omega
  unfold ViewState.right
  rw [if_pos hlt]
  unfold ViewState.del
  rw [if_neg hne, if_pos hlt]
  unfold ViewState.backspace
  dsimp only [ViewState.refresh_anchor_x, ViewState.ensure_cursor_on_screen]
  rw [if_pos (show s.selection_pos ≠ s.cursor_pos + 1 from by omega)]
  dsimp only [ViewState.replace_slice, ViewState.replace_slice_and_get_edit,
    ViewState.clear_selection, ViewState.content]
  rw [hsel]
  rw [show min (s.cursor_pos + 1) s.cursor_pos = s.cursor_pos from by omega]
  rw [show max (s.cursor_pos + 1) s.cursor_pos = s.cursor_pos + 1 from by
    omega]
  exact ⟨rfl, rfl, rfl⟩

theorem claim_C2_witness :
    stateC.selection_pos = stateC.cursor_pos ∧
    stateC.cursor_pos < stateC.document.len ∧
    ((ViewState.del unitShaper stateC).content =
      (ViewState.backspace unitShaper
        (ViewState.right unitShaper stateC)).content ∧
     (ViewState.del unitShaper stateC).cursor_pos =
      (ViewState.backspace unitShaper
        (ViewState.right unitShaper stateC)).cursor_pos ∧
     (ViewState.del unitShaper stateC).selection_pos =
      (ViewState.backspace unitShaper
        (ViewState.right unitShaper stateC)).selection_pos) :=
  ⟨rfl, by decide, claim_C2 unitShaper _ rfl (by decide)⟩

/-- C6: `replace_slice_and_get_edit(start, end, text)` returns `None` and
leaves the document unchanged exactly when the current slice already equals
`text`; otherwise it returns `Some` edit whose reverse application
(`replace_slice` over the recorded range with the recorded old text) restores
the original document content. -/
theorem claim_C6 {V : Type} (s : ViewState V) {a e : Nat} (t : List Char)
    (ha : a ≤ e) (he : e ≤ s.document.len) :
    ((s.replace_slice_and_get_edit a e t).1 = none ↔
      s.document.slice_string a e = t) ∧
    ((s.replace_slice_and_get_edit a e t).1 = none →
      (s.replace_slice_and_get_edit a e t).2 = s) ∧
    (∀ ed : SliceEdit, (s.replace_slice_and_get_edit a e t).1 = some ed →
      ((s.replace_slice_and_get_edit a e t).2.document.replace_slice
          ed.start ed.end_ ed.old_text).toList = s.document.toList) := by
  by_cases hc : s.document.slice_string a e = t
  · unfold ViewState.replace_slice_and_get_edit
    rw [rsgeDoc_eq_none _ hc]
    refine ⟨by simp [hc], fun _ => rfl, ?_⟩
    intro ed hed
    cases hed
  · have hss := slice_string_sliceOf s.document he (s := a)
    have hrev := rsgeDoc_revert s.document
      { old_text := t, start := a, end_ := e } ha he
      (by rw [← hss]; exact hc)
    unfold ViewState.replace_slice_and_get_edit
    rw [hrev.1]
    refine ⟨by simp [hc], by simp, ?_⟩
    intro ed hed
    dsimp only at hed
    injection hed with hed
    subst hed
    dsimp only
    have h1 : (invOf s.document.toList
        { old_text := t, start := a, end_ := e }).start ≤
        (invOf s.document.toList
          { old_text := t, start := a, end_ := e }).end_ := by
      simp [invOf]
    have h2 : (invOf s.document.toList
        { old_text := t, start := a, end_ := e }).end_ ≤
        (s.document.replace_slice a e t).len := by
      have hl := LineGapBuffer.replace_slice_len s.document t ha he
      have hO := LineGapBuffer.length_toList s.document
      simp [invOf]
      omega
    rw [LineGapBuffer.replace_slice_toList _ _ h1 h2]
    rw [hrev.2]
    exact applyEdit_invOf s.document.toList
      { old_text := t, start := a, end_ := e } ha
      (by rw [LineGapBuffer.length_toList]; exact he)

theorem claim_C6_witness :
    (0 ≤ 1 ∧ 1 ≤ stateA.document.len) ∧
    (((stateA.replace_slice_and_get_edit 0 1 []).1 = none ↔
      stateA.document.slice_string 0 1 = []) ∧
    ((stateA.replace_slice_and_get_edit 0 1 []).1 = none →
      (stateA.replace_slice_and_get_edit 0 1 []).2 = stateA) ∧
    (∀ ed : SliceEdit, (stateA.replace_slice_and_get_edit 0 1 []).1 =
        some ed →
      ((stateA.replace_slice_and_get_edit 0 1 []).2.document.replace_slice
          ed.start ed.end_ ed.old_text).toList =
        stateA.document.toList)) :=
  ⟨⟨by decide, by decide⟩, claim_C6 stateA [] (by decide) (by decide)⟩

/-- C8: on a nonempty document (with at least one undo snapshot made, the
precondition of the internal `replace_slice` assert), `select_all()` followed
by `cut_selection()` returns the whole previous document text and leaves the
content empty with the cursor at 0. -/
theorem claim_C8 {V : Type} (sh : Shaper V) (s : ViewState V)
    (hne : 0 < s.document.len) (hsnap : s.undo_snapshots ≠ []) :
    (ViewState.cut_selection sh (ViewState.select_all s)).1 = s.content ∧
    (ViewState.cut_selection sh (ViewState.select_all s)).2.content = [] ∧
    (ViewState.cut_selection sh (ViewState.select_all s)).2.cursor_pos =
      0 := by
  unfold ViewState.cut_selection ViewState.select_all
  dsimp only [ViewState.refresh_anchor_x, ViewState.ensure_cursor_on_screen,
    ViewState.clear_selection, ViewState.replace_slice,
    ViewState.replace_slice_and_get_edit, ViewState.content]
  rw [show min s.document.len 0 = 0 from by omega]
  rw [show max s.document.len 0 = s.document.len from by omega]
  have hslice : s.document.slice_string 0 s.document.len =
      s.document.toList := LineGapBuffer.slice_string_zero_len s.document
  have hnil : s.document.slice_string 0 s.document.len ≠ [] := by
    rw [hslice]
    intro hcon
    have := LineGapBuffer.length_toList s.document
    rw [hcon] at this
    simp at this
    omega
  rw [show rsgeDoc s.document 0 s.document.len [] =
      (some { old_text := s.document.slice_string 0 s.document.len,
              start := 0, end_ := 0 + List.length [] },
       s.document.replace_slice 0 s.document.len []) from by
    unfold rsgeDoc
    rw [if_neg hnil]]
  dsimp only
  refine ⟨rfl, ?_, rfl⟩
  rw [LineGapBuffer.slice_string_zero_len]
  rw [LineGapBuffer.replace_slice_toList s.document [] (Nat.zero_le _)
    (Nat.le_refl _)]
  rw [List.take_zero, List.drop_of_length_le
    (le_of_eq (LineGapBuffer.length_toList s.document))]
  rfl

theorem claim_C8_witness :
    (0 < stateA.document.len ∧ stateA.undo_snapshots ≠ []) ∧
    ((ViewState.cut_selection unitShaper
        (ViewState.select_all stateA)).1 = stateA.content ∧
     (ViewState.cut_selection unitShaper
        (ViewState.select_all stateA)).2.content = [] ∧
     (ViewState.cut_selection unitShaper
        (ViewState.select_all stateA)).2.cursor_pos = 0) :=
  ⟨⟨by decide, by decide⟩, claim_C8 unitShaper stateA (by decide) (by decide)⟩

/-- C10: with no active selection and the cursor at position 0, `backspace()`
returns the state completely unchanged (document, cursor, selection, viewport
and all four undo/redo stacks). -/
theorem claim_C10 {V : Type} (sh : Shaper V) (s : ViewState V)
    (hsel : s.selection_pos = s.cursor_pos) (h0 : s.cursor_pos = 0) :
    ViewState.backspace sh s = s := by
  unfold ViewState.backspace
  rw [if_neg (by omega), if_neg (by omega)]

theorem claim_C10_witness :
    (stateC.selection_pos = stateC.cursor_pos ∧
     stateC.cursor_pos = 0) ∧
    ViewState.backspace unitShaper stateC = stateC :=
  ⟨⟨rfl, rfl⟩, claim_C10 unitShaper _ rfl rfl⟩

/-! ### The undo/redo inversion theory at the content level -/

theorem revertList_append (xs ys : List SliceEdit) :
    ∀ c : List Char, revertList c (xs ++ ys) =
      revertList (revertList c xs) ys := by
  induction xs with
  | nil => intro c; rfl
  | cons x xs ih => intro c; exact ih (applyEdit c x)

theorem invList_append (xs ys : List SliceEdit) :
    ∀ c : List Char, invList c (xs ++ ys) =
      invList (revertList c xs) ys ++ invList c xs := by
  induction xs with
  | nil => intro c; simp [invList, revertList]
  | cons x xs ih =>
    intro c
    show invList (applyEdit c x) (xs ++ ys) ++ [invOf c x] = _
    rw [ih]
    show _ = invList (revertList (applyEdit c x) xs) ys ++
      (invList (applyEdit c x) xs ++ [invOf c x])
    rw [List.append_assoc]

theorem EditsOk_append (xs ys : List SliceEdit) :
    ∀ c : List Char, EditsOk c (xs ++ ys) ↔
      EditsOk c xs ∧ EditsOk (revertList c xs) ys := by
  induction xs with
  | nil => intro c; simp [EditsOk, revertList]
  | cons x xs ih =>
    intro c
    show (x.start ≤ x.end_ ∧ x.end_ ≤ c.length ∧
        sliceOf c x.start x.end_ ≠ x.old_text ∧
        EditsOk (applyEdit c x) (xs ++ ys)) ↔ _
    rw [ih (applyEdit c x)]
    show _ ↔ (x.start ≤ x.end_ ∧ x.end_ ≤ c.length ∧
        sliceOf c x.start x.end_ ≠ x.old_text ∧
        EditsOk (applyEdit c x) xs) ∧
      EditsOk (revertList (applyEdit c x) xs) ys
    tauto

theorem SnapsOk_mono {m m' : Nat} (h : m ≤ m') :
    ∀ l : List UndoSnapshot, SnapsOk m l → SnapsOk m' l := by
  intro l
  cases l with
  | nil => intro h2; trivial
  | cons sn rest =>
    intro h2
    exact ⟨le_trans h2.1 h, h2.2⟩

theorem revert_inv (es : List SliceEdit) :
    ∀ c : List Char, EditsOk c es →
      revertList (revertList c es) (invList c es) = c ∧
      invList (revertList c es) (invList c es) = es ∧
      EditsOk (revertList c es) (invList c es) := by
  induction es with
  | nil => intro c h; exact ⟨rfl, rfl, trivial⟩
  | cons ed rest ih =>
    intro c h
    obtain ⟨h1, h2, h3, h4⟩ := h
    have hIH := ih (applyEdit c ed) h4
    have hrev : revertList c (ed :: rest) =
        revertList (applyEdit c ed) rest := rfl
    have hinv : invList c (ed :: rest) =
        invList (applyEdit c ed) rest ++ [invOf c ed] := rfl
    rw [hrev, hinv]
    have hok1 : EditsOk (applyEdit c ed) [invOf c ed] := by
      refine ⟨?_, ?_, ?_, trivial⟩
      · simp [invOf]
      · simp only [invOf]
        rw [applyEdit_length c ed h1 h2]
        omega
      · simp only [invOf]
        rw [sliceOf_applyEdit c ed (by omega)]
        exact fun hcon => h3 hcon.symm
    have happ : EditsOk (revertList (applyEdit c ed) rest)
        (invList (applyEdit c ed) rest ++ [invOf c ed]) := by
      rw [EditsOk_append]
      refine ⟨hIH.2.2, ?_⟩
      rw [hIH.1]
      exact hok1
    refine ⟨?_, ?_, happ⟩
    · rw [revertList_append]
      rw [hIH.1]
      show applyEdit (applyEdit c ed) (invOf c ed) = c
      exact applyEdit_invOf c ed h1 h2
    · rw [invList_append]
      rw [hIH.1, hIH.2.1]
      show [invOf (applyEdit c ed) (invOf c ed)] ++ rest = ed :: rest
      rw [invOf_applyEdit c ed h1 h2]
      rfl

theorem undoLoop_spec (es : List SliceEdit) :
    ∀ (rest : List SliceEdit) (doc : LineGapBuffer Unit)
      (res : List SliceEdit), EditsOk doc.toList es →
      (ViewState.undoLoop rest.length doc (es ++ rest) res).1.toList =
        revertList doc.toList es ∧
      (ViewState.undoLoop rest.length doc (es ++ rest) res).2.1 = rest ∧
      (ViewState.undoLoop rest.length doc (es ++ rest) res).2.2 =
        invList doc.toList es ++ res := by
  induction es with
  | nil =>
    intro rest doc res h
    rw [List.nil_append]
    rw [ViewState.undoLoop.eq_def]
    rw [if_neg (lt_irrefl rest.length)]
    exact ⟨rfl, rfl, rfl⟩
  | cons e es ih =>
    intro rest doc res h
    obtain ⟨h1, h2, h3, h4⟩ := h
    have h2' : e.end_ ≤ doc.len := by
      rw [← LineGapBuffer.length_toList]
      exact h2
    have hrev := rsgeDoc_revert doc e h1 h2' h3
    have hstep : ViewState.undoLoop rest.length doc ((e :: es) ++ rest) res =
        ViewState.undoLoop rest.length
          (doc.replace_slice e.start e.end_ e.old_text) (es ++ rest)
          (invOf doc.toList e :: res) := by
      rw [List.cons_append]
      rw [ViewState.undoLoop.eq_def]
      rw [if_pos (by
        rw [List.length_cons, List.length_append]
        omega)]
      dsimp only
      rw [hrev.1]
      rfl
    have h4' : EditsOk
        (doc.replace_slice e.start e.end_ e.old_text).toList es := by
      rw [hrev.2]
      exact h4
    have hI := ih rest (doc.replace_slice e.start e.end_ e.old_text)
      (invOf doc.toList e :: res) h4'
    rw [hstep]
    refine ⟨?_, hI.2.1, ?_⟩
    · rw [hI.1, hrev.2]
      rfl
    · rw [hI.2.2, hrev.2]
      show invList (applyEdit doc.toList e) es ++
        ([invOf doc.toList e] ++ res) = _
      rw [← List.append_assoc]
      rfl

/-! ### The observable effect of undo and redo -/

theorem undoObs_eq (o : Obs) (snap : UndoSnapshot)
    (rest : List UndoSnapshot) (es tl : List SliceEdit)
    (hsn : o.usnaps = snap :: rest) (hsplit : o.ues = es ++ tl)
    (htl : tl.length = snap.slice_edit_count) :
    undoObs o =
      { content := revertList o.content es, cursor := snap.cursor_pos,
        ues := tl, usnaps := rest, res := invList o.content es ++ o.res,
        rsnaps := { slice_edit_count := o.res.length,
                    cursor_pos := o.cursor } :: o.rsnaps } := by
  unfold undoObs
  split
  · next heq =>
    rw [hsn] at heq
    cases heq
  · next snap' rest' heq =>
    rw [hsn] at heq
    injection heq with he1 he2
    subst he1
    subst he2
    dsimp only
    rw [hsplit, ← htl, List.length_append, Nat.add_sub_cancel]
    rw [List.take_left, List.drop_left]

theorem undoObs_usnaps (o : Obs) : (undoObs o).usnaps = o.usnaps.tail := by
  unfold undoObs
  split
  · next heq =>
    rw [heq]
    rfl
  · next snap' rest' heq =>
    rw [heq]
    rfl

theorem undoObs_valid (o : Obs) (hv : ValidObs o) : ValidObs (undoObs o) := by
  obtain ⟨c, cur, ues, usnaps, res, rsnaps⟩ := o
  cases usnaps with
  | nil => exact hv
  | cons snap rest =>
    obtain ⟨h1, h2, h3, h4⟩ := hv
    dsimp only at h1 h2 h3 h4
    have hcnt : snap.slice_edit_count ≤ ues.length := h2.1
    obtain ⟨es, tl, rfl, htl⟩ : ∃ es tl : List SliceEdit,
        ues = es ++ tl ∧ tl.length = snap.slice_edit_count :=
      ⟨_, _, (List.take_append_drop (ues.length -
        snap.slice_edit_count) ues).symm, by
          rw [List.length_drop]
          omega⟩
    have hesplit := (EditsOk_append es tl c).mp h1
    have hri := revert_inv es c hesplit.1
    rw [undoObs_eq _ snap rest es tl rfl rfl htl]
    refine ⟨?_, ?_, ?_, ?_⟩ <;> dsimp only
    · exact hesplit.2
    · rw [htl]
      exact h2.2
    · rw [EditsOk_append]
      refine ⟨hri.2.2, ?_⟩
      rw [hri.1]
      exact h3
    · refine ⟨?_, h4⟩
      show res.length ≤ (invList c es ++ res).length
      rw [List.length_append]
      omega

theorem swapObs_valid (o : Obs) (hv : ValidObs o) : ValidObs (swapObs o) :=
  ⟨hv.2.2.1, hv.2.2.2, hv.1, hv.2.1⟩

theorem redoObs_undoObs (o : Obs) (hv : ValidObs o) (hne : o.usnaps ≠ []) :
    redoObs (undoObs o) = o := by
  obtain ⟨c, cur, ues, usnaps, res, rsnaps⟩ := o
  cases usnaps with
  | nil => exact absurd rfl hne
  | cons snap rest =>
    obtain ⟨h1, h2, h3, h4⟩ := hv
    dsimp only at h1 h2 h3 h4
    have hcnt : snap.slice_edit_count ≤ ues.length := h2.1
    obtain ⟨es, tl, rfl, htl⟩ : ∃ es tl : List SliceEdit,
        ues = es ++ tl ∧ tl.length = snap.slice_edit_count :=
      ⟨_, _, (List.take_append_drop (ues.length -
        snap.slice_edit_count) ues).symm, by
          rw [List.length_drop]
          omega⟩
    have hesok : EditsOk c es := ((EditsOk_append es tl c).mp h1).1
    have hri := revert_inv es c hesok
    rw [undoObs_eq _ snap rest es tl rfl rfl htl]
    unfold redoObs
    rw [undoObs_eq _ { slice_edit_count := res.length, cursor_pos := cur }
      rsnaps (invList c es) res rfl rfl rfl]
    simp only [swapObs]
    rw [hri.1, hri.2.1, htl]

theorem undoIter_usnaps_length (n : Nat) :
    ∀ o : Obs, (undoIter n o).usnaps.length ≥ o.usnaps.length - n := by
  induction n with
  | zero => intro o; simp [undoIter]
  | succ n ih =>
    intro o
    show (undoIter n (undoObs o)).usnaps.length ≥ _
    have h := ih (undoObs o)
    rw [undoObs_usnaps] at h
    have := List.length_tail o.usnaps
    omega

theorem undoIter_valid (n : Nat) :
    ∀ o : Obs, ValidObs o → ValidObs (undoIter n o) := by
  induction n with
  | zero => intro o hv; exact hv
  | succ n ih => intro o hv; exact ih (undoObs o) (undoObs_valid o hv)

theorem redoObs_valid (o : Obs) (hv : ValidObs o) : ValidObs (redoObs o) :=
  swapObs_valid _ (undoObs_valid _ (swapObs_valid o hv))

theorem redoIter_undoIter (n : Nat) :
    ∀ o : Obs, ValidObs o → n ≤ o.usnaps.length →
      redoIter n (undoIter n o) = o := by
  induction n with
  | zero => intro o hv hn; rfl
  | succ n ih =>
    intro o hv hn
    show redoObs (redoIter n (undoIter n (undoObs o))) = o
    rw [ih (undoObs o) (undoObs_valid o hv) (by
      rw [undoObs_usnaps]
      have := List.length_tail o.usnaps
      omega)]
    refine redoObs_undoObs o hv ?_
    intro hcon
    rw [hcon] at hn
    simp at hn

/-! ### Bridging the engine to the observable model -/

theorem swap_fullObs {V : Type} (s : ViewState V) :
    fullObs (ViewState.swap_undo_redo s) = swapObs (fullObs s) := rfl

theorem undo_fullObs {V : Type} (sh : Shaper V) (s : ViewState V)
    (snap : UndoSnapshot) (rest : List UndoSnapshot) (es tl : List SliceEdit)
    (hsn : s.undo_snapshots = snap :: rest)
    (hsplit : s.undo_slice_edits = es ++ tl)
    (htl : tl.length = snap.slice_edit_count)
    (hok : EditsOk s.document.toList es) :
    fullObs (ViewState.undo sh s) =
      { content := revertList s.document.toList es,
        cursor := snap.cursor_pos, ues := tl, usnaps := rest,
        res := invList s.document.toList es ++ s.redo_slice_edits,
        rsnaps := { slice_edit_count := s.redo_slice_edits.length,
                    cursor_pos := s.cursor_pos } :: s.redo_snapshots } := by
  have hcall := undoLoop_spec es tl s.document s.redo_slice_edits hok
  unfold ViewState.undo
  split
  · next snap' rest' heq =>
    rw [hsn] at heq
    injection heq with he1 he2
    subst he1
    subst he2
    dsimp only [fullObs, ViewState.ensure_cursor_on_screen,
      ViewState.clear_selection]
    rw [hsplit, ← htl]
    rw [hcall.1, hcall.2.1, hcall.2.2]
  · next heq =>
    rw [hsn] at heq
    cases heq

theorem fullObs_undo {V : Type} (sh : Shaper V) (s : ViewState V)
    (h1 : EditsOk s.document.toList s.undo_slice_edits)
    (h2 : SnapsOk s.undo_slice_edits.length s.undo_snapshots) :
    fullObs (ViewState.undo sh s) = undoObs (fullObs s) := by
  cases hsn : s.undo_snapshots with
  | nil =>
    have hobs : undoObs (fullObs s) = fullObs s := by
      unfold undoObs
      split
      · rfl
      · next snap' rest' heq =>
        dsimp only [fullObs] at heq
        rw [hsn] at heq
        cases heq
    rw [hobs]
    unfold ViewState.undo
    split
    · next snap' rest' heq =>
      rw [hsn] at heq
      cases heq
    · rfl
  | cons snap rest =>
    have hcnt : snap.slice_edit_count ≤ s.undo_slice_edits.length := by
      rw [hsn] at h2
      exact h2.1
    have hsplit : s.undo_slice_edits =
        s.undo_slice_edits.take (s.undo_slice_edits.length -
          snap.slice_edit_count) ++
        s.undo_slice_edits.drop (s.undo_slice_edits.length -
          snap.slice_edit_count) := (List.take_append_drop _ _).symm
    have htl : (s.undo_slice_edits.drop (s.undo_slice_edits.length -
        snap.slice_edit_count)).length = snap.slice_edit_count := by
      rw [List.length_drop]
      omega
    have hok : EditsOk s.document.toList
        (s.undo_slice_edits.take (s.undo_slice_edits.length -
          snap.slice_edit_count)) := by
      have h1' := h1
      rw [hsplit] at h1'
      exact ((EditsOk_append _ _ _).mp h1').1
    rw [undo_fullObs sh s snap rest _ _ hsn hsplit htl hok]
    rw [undoObs_eq (fullObs s) snap rest _ _ hsn hsplit htl]
    rfl

theorem fullObs_redo {V : Type} (sh : Shaper V) (s : ViewState V)
    (h3 : EditsOk s.document.toList s.redo_slice_edits)
    (h4 : SnapsOk s.redo_slice_edits.length s.redo_snapshots) :
    fullObs (ViewState.redo sh s) = redoObs (fullObs s) := by
  unfold ViewState.redo redoObs
  rw [swap_fullObs, fullObs_undo sh (ViewState.swap_undo_redo s) h3 h4,
    swap_fullObs]

theorem fullObs_undoN {V : Type} (sh : Shaper V) (n : Nat) :
    ∀ s : ViewState V, Valid s →
      fullObs (undoN sh n s) = undoIter n (fullObs s) ∧
      Valid (undoN sh n s) := by
  induction n with
  | zero => intro s hv; exact ⟨rfl, hv⟩
  | succ n ih =>
    intro s hv
    have hu : fullObs (ViewState.undo sh s) = undoObs (fullObs s) :=
      fullObs_undo sh s hv.1 hv.2.1
    have hvu : Valid (ViewState.undo sh s) := by
      show ValidObs (fullObs (ViewState.undo sh s))
      rw [hu]
      exact undoObs_valid (fullObs s) hv
    have hI := ih (ViewState.undo sh s) hvu
    refine ⟨?_, hI.2⟩
    show fullObs (undoN sh n (ViewState.undo sh s)) =
      undoIter n (undoObs (fullObs s))
    rw [hI.1, hu]

theorem fullObs_redoN {V : Type} (sh : Shaper V) (n : Nat) :
    ∀ s : ViewState V, Valid s →
      fullObs (redoN sh n s) = redoIter n (fullObs s) ∧
      Valid (redoN sh n s) := by
  induction n with
  | zero => intro s hv; exact ⟨rfl, hv⟩
  | succ n ih =>
    intro s hv
    have hI := ih s hv
    have hv' : Valid (redoN sh n s) := hI.2
    have hr : fullObs (ViewState.redo sh (redoN sh n s)) =
        redoObs (fullObs (redoN sh n s)) :=
      fullObs_redo sh _ hv'.2.2.1 hv'.2.2.2
    refine ⟨?_, ?_⟩
    · show fullObs (ViewState.redo sh (redoN sh n s)) =
        redoObs (redoIter n (fullObs s))
      rw [hr, hI.1]
    · show ValidObs (fullObs (ViewState.redo sh (redoN sh n s)))
      rw [hr]
      exact redoObs_valid _ hv'

/-! ### The editing operations preserve the history invariant -/

theorem edit_step {V : Type} (s : ViewState V) (a e : Nat) (t : List Char)
    (ha : a ≤ e) (he : e ≤ s.document.len)
    (h1 : EditsOk s.document.toList s.undo_slice_edits)
    (h2 : SnapsOk s.undo_slice_edits.length s.undo_snapshots)
    (h3 : s.redo_slice_edits = []) (h4 : s.redo_snapshots = []) :
    Valid (s.replace_slice a e t) ∧
    (s.replace_slice a e t).redo_slice_edits = [] ∧
    (s.replace_slice a e t).redo_snapshots = [] ∧
    (s.replace_slice a e t).document.len =
      a + t.length + (s.document.len - e) ∧
    (s.replace_slice a e t).cursor_pos = s.cursor_pos ∧
    (s.replace_slice a e t).selection_pos = s.selection_pos ∧
    (s.replace_slice a e t).undo_snapshots = s.undo_snapshots ∧
    (s.replace_slice a e t).unmodified_snapshot = s.unmodified_snapshot := by
  have hO := LineGapBuffer.length_toList s.document
  unfold ViewState.replace_slice ViewState.replace_slice_and_get_edit
  by_cases hc : s.document.slice_string a e = t
  · rw [rsgeDoc_eq_none s.document hc]
    dsimp only
    have hlen : (s.document.slice_string a e).length = e - a :=
      LineGapBuffer.length_slice_string s.document ha he
    rw [hc] at hlen
    refine ⟨⟨h1, h2, ?_, ?_⟩, h3, h4, by omega, rfl, rfl, rfl, rfl⟩
    · show EditsOk s.document.toList s.redo_slice_edits
      rw [h3]
      trivial
    · show SnapsOk s.redo_slice_edits.length s.redo_snapshots
      rw [h3, h4]
      trivial
  · have hne : sliceOf s.document.toList a e ≠ t := by
      rw [← slice_string_sliceOf s.document he]
      exact hc
    have hrev := rsgeDoc_revert s.document
      { old_text := t, start := a, end_ := e } ha he hne
    rw [hrev.1]
    dsimp only
    have hlenc' := LineGapBuffer.replace_slice_len s.document t ha he
    refine ⟨⟨?_, ?_, ?_, ?_⟩, h3, h4, hlenc', rfl, rfl, rfl, rfl⟩
    · show EditsOk (s.document.replace_slice a e t).toList
        (invOf s.document.toList
          { old_text := t, start := a, end_ := e } :: s.undo_slice_edits)
      rw [hrev.2]
      refine ⟨?_, ?_, ?_, ?_⟩
      · simp [invOf]
      · simp only [invOf]
        rw [applyEdit_length s.document.toList
          { old_text := t, start := a, end_ := e } ha
          (by show e ≤ s.document.toList.length; omega)]
        dsimp only
        omega
      · simp only [invOf]
        have hsl : sliceOf (applyEdit s.document.toList
            { old_text := t, start := a, end_ := e }) a (a + t.length) = t :=
          sliceOf_applyEdit s.document.toList
            { old_text := t, start := a, end_ := e }
            (by show a ≤ s.document.toList.length; omega)
        rw [hsl]
        exact Ne.symm hne
      · rw [applyEdit_invOf s.document.toList
          { old_text := t, start := a, end_ := e } ha
          (by show e ≤ s.document.toList.length; omega)]
        exact h1
    · show SnapsOk (invOf s.document.toList
          { old_text := t, start := a, end_ := e } ::
          s.undo_slice_edits).length s.undo_snapshots
      rw [List.length_cons]
      exact SnapsOk_mono (by omega) _ h2
    · show EditsOk (s.document.replace_slice a e t).toList
        s.redo_slice_edits
      rw [h3]
      trivial
    · show SnapsOk s.redo_slice_edits.length s.redo_snapshots
      rw [h3, h4]
      trivial

theorem inv_edit_wrap {V : Type} (s x : ViewState V) (a e k : Nat)
    (t : List Char)
    (hx1 : x.document = (ViewState.replace_slice s a e t).document)
    (hx2 : x.undo_slice_edits =
      (ViewState.replace_slice s a e t).undo_slice_edits)
    (hx3 : x.undo_snapshots = s.undo_snapshots)
    (hx4 : x.redo_slice_edits = s.redo_slice_edits)
    (hx5 : x.redo_snapshots = s.redo_snapshots)
    (hx6 : x.cursor_pos = k) (hx7 : x.selection_pos = k)
    (ha : a ≤ e) (he : e ≤ s.document.len)
    (hk : k ≤ a + t.length + (s.document.len - e))
    (hInv : Inv s) : Inv x := by
  obtain ⟨hv, hre, hrs, hcur, hsel⟩ := hInv
  have hstep := edit_step s a e t ha he hv.1 hv.2.1 hre hrs
  have husn := hstep.2.2.2.2.2.2.1
  have hlen := hstep.2.2.2.1
  refine ⟨⟨?_, ?_, ?_, ?_⟩, ?_, ?_, ?_, ?_⟩
  · rw [hx1, hx2]
    exact hstep.1.1
  · rw [hx2, hx3, ← husn]
    exact hstep.1.2.1
  · rw [hx1, hx4, hre]
    trivial
  · rw [hx4, hx5, hre, hrs]
    trivial
  · rw [hx4, hre]
  · rw [hx5, hrs]
  · rw [hx6, hx1, hlen]
    omega
  · rw [hx7, hx1, hlen]
    omega

theorem make_push_fields {V : Type} (s : ViewState V) :
    (ViewState.make_undo_snapshot_push s).document = s.document ∧
    (ViewState.make_undo_snapshot_push s).cursor_pos = s.cursor_pos ∧
    (ViewState.make_undo_snapshot_push s).selection_pos =
      s.selection_pos ∧
    (ViewState.make_undo_snapshot_push s).undo_slice_edits =
      s.undo_slice_edits ∧
    (ViewState.make_undo_snapshot_push s).undo_snapshots =
      { slice_edit_count := s.undo_slice_edits.length,
        cursor_pos := s.cursor_pos } :: s.undo_snapshots ∧
    (ViewState.make_undo_snapshot_push s).redo_slice_edits = [] ∧
    (ViewState.make_undo_snapshot_push s).redo_snapshots = [] := by
  unfold ViewState.make_undo_snapshot_push
  dsimp only
  split
  · split
    · exact ⟨rfl, rfl, rfl, rfl, rfl, rfl, rfl⟩
    · exact ⟨rfl, rfl, rfl, rfl, rfl, rfl, rfl⟩
  · exact ⟨rfl, rfl, rfl, rfl, rfl, rfl, rfl⟩

theorem make_snapshot_cases {V : Type} (s : ViewState V) :
    ViewState.make_undo_snapshot s = s ∨
    ViewState.make_undo_snapshot s = ViewState.make_undo_snapshot_push s := by
  unfold ViewState.make_undo_snapshot
  split
  · split
    · exact Or.inl rfl
    · exact Or.inr rfl
  · exact Or.inr rfl

theorem reach_inv {V : Type} (sh : Shaper V) (s : ViewState V)
    (h : Reach sh s) : Inv s := by
  induction h with
  | of_load s0 text b =>
    refine ⟨⟨trivial, trivial, trivial, trivial⟩, rfl, rfl, ?_, ?_⟩
    · exact Nat.zero_le _
    · exact Nat.zero_le _
  | @of_insert_char s c hr ih =>
    unfold ViewState.insert_char
    by_cases hcs : s.selection_pos ≠ s.cursor_pos
    · rw [if_pos hcs]
      refine inv_edit_wrap s _ (min s.cursor_pos s.selection_pos)
        (max s.cursor_pos s.selection_pos)
        (min s.cursor_pos s.selection_pos + 1) [c]
        rfl rfl rfl rfl rfl rfl rfl (by omega) ?_ ?_ ih
      · have h1 := ih.2.2.2.1
        have h2 := ih.2.2.2.2
        omega
      · simp only [List.length_cons, List.length_nil]
        omega
    · rw [if_neg hcs]
      refine inv_edit_wrap s _ s.cursor_pos s.cursor_pos
        (s.cursor_pos + 1) [c] rfl rfl rfl rfl rfl rfl rfl
        (le_refl _) ih.2.2.2.1 ?_ ih
      simp only [List.length_cons, List.length_nil]
      omega
  | @of_backspace s hr ih =>
    unfold ViewState.backspace
    by_cases hcs : s.selection_pos ≠ s.cursor_pos
    · rw [if_pos hcs]
      refine inv_edit_wrap s _ (min s.cursor_pos s.selection_pos)
        (max s.cursor_pos s.selection_pos)
        (min s.cursor_pos s.selection_pos) []
        rfl rfl rfl rfl rfl rfl rfl (by omega) ?_ ?_ ih
      · have h1 := ih.2.2.2.1
        have h2 := ih.2.2.2.2
        omega
      · simp only [List.length_nil]
        omega
    · rw [if_neg hcs]
      by_cases h0 : s.cursor_pos > 0
      · rw [if_pos h0]
        have hInv0 : Inv { s with cursor_pos := s.cursor_pos - 1 } := by
          obtain ⟨hv, hre, hrs, hcur, hsel⟩ := ih
          refine ⟨hv, hre, hrs, ?_, hsel⟩
          show s.cursor_pos - 1 ≤ s.document.len
          omega
        refine inv_edit_wrap { s with cursor_pos := s.cursor_pos - 1 } _
          (s.cursor_pos - 1) (s.cursor_pos - 1 + 1) (s.cursor_pos - 1) []
          rfl rfl rfl rfl rfl rfl rfl (by omega) ?_ ?_ hInv0
        · show s.cursor_pos - 1 + 1 ≤ s.document.len
          have h1 := ih.2.2.2.1
          omega
        · simp only [List.length_nil]
          omega
      · rw [if_neg h0]
        exact ih
  | @of_del s hr ih =>
    unfold ViewState.del
    by_cases hcs : s.selection_pos ≠ s.cursor_pos
    · rw [if_pos hcs]
      refine inv_edit_wrap s _ (min s.cursor_pos s.selection_pos)
        (max s.cursor_pos s.selection_pos)
        (min s.cursor_pos s.selection_pos) []
        rfl rfl rfl rfl rfl rfl rfl (by omega) ?_ ?_ ih
      · have h1 := ih.2.2.2.1
        have h2 := ih.2.2.2.2
        omega
      · simp only [List.length_nil]
        omega
    · rw [if_neg hcs]
      by_cases hlt : s.cursor_pos < s.document.len
      · rw [if_pos hlt]
        refine inv_edit_wrap s _ s.cursor_pos (s.cursor_pos + 1)
          s.cursor_pos [] rfl rfl rfl rfl rfl rfl rfl (by omega)
          (by omega) ?_ ih
        simp only [List.length_nil]
        omega
      · rw [if_neg hlt]
        exact ih
  | @of_paste s t hr ih =>
    unfold ViewState.paste
    by_cases hcs : s.selection_pos ≠ s.cursor_pos
    · rw [if_pos hcs]
      refine inv_edit_wrap s _ (min s.cursor_pos s.selection_pos)
        (max s.cursor_pos s.selection_pos)
        (min s.cursor_pos s.selection_pos + t.length) t
        rfl rfl rfl rfl rfl rfl rfl (by omega) ?_ (by omega) ih
      have h1 := ih.2.2.2.1
      have h2 := ih.2.2.2.2
      omega
    · rw [if_neg hcs]
      refine inv_edit_wrap s _ s.cursor_pos s.cursor_pos
        (s.cursor_pos + t.length) t rfl rfl rfl rfl rfl rfl rfl
        (le_refl _) ih.2.2.2.1 (by omega) ih
  | @of_cut_selection s hr ih =>
    unfold ViewState.cut_selection
    dsimp only
    refine inv_edit_wrap s _ (min s.cursor_pos s.selection_pos)
      (max s.cursor_pos s.selection_pos)
      (min s.cursor_pos s.selection_pos) []
      rfl rfl rfl rfl rfl rfl rfl (by omega) ?_ ?_ ih
    · have h1 := ih.2.2.2.1
      have h2 := ih.2.2.2.2
      omega
    · simp only [List.length_nil]
      omega
  | @of_select_all s hr ih =>
    obtain ⟨hv, hre, hrs, hcur, hsel⟩ := ih
    exact ⟨hv, hre, hrs, le_refl _, Nat.zero_le _⟩
  | @of_left s hr ih =>
    unfold ViewState.left
    by_cases h0 : s.cursor_pos > 0
    · rw [if_pos h0]
      obtain ⟨hv, hre, hrs, hcur, hsel⟩ := ih
      refine ⟨hv, hre, hrs, ?_, hsel⟩
      show s.cursor_pos - 1 ≤ s.document.len
      omega
    · rw [if_neg h0]
      exact ih
  | @of_right s hr ih =>
    unfold ViewState.right
    by_cases hlt : s.cursor_pos < s.document.len
    · rw [if_pos hlt]
      obtain ⟨hv, hre, hrs, hcur, hsel⟩ := ih
      refine ⟨hv, hre, hrs, ?_, hsel⟩
      show s.cursor_pos + 1 ≤ s.document.len
      omega
    · rw [if_neg hlt]
      exact ih
  | @of_clear_selection s hr ih =>
    obtain ⟨hv, hre, hrs, hcur, hsel⟩ := ih
    exact ⟨hv, hre, hrs, hcur, hcur⟩
  | @of_make_undo_snapshot s hr ih =>
    rcases make_snapshot_cases s with hEq | hEq
    · rw [hEq]
      exact ih
    · rw [hEq]
      obtain ⟨hv, hre, hrs, hcur, hsel⟩ := ih
      have hp := make_push_fields s
      refine ⟨⟨?_, ?_, ?_, ?_⟩, hp.2.2.2.2.2.1, hp.2.2.2.2.2.2, ?_, ?_⟩
      · rw [hp.1, hp.2.2.2.1]
        exact hv.1
      · rw [hp.2.2.2.1, hp.2.2.2.2.1]
        exact ⟨le_refl _, hv.2.1⟩
      · rw [hp.1, hp.2.2.2.2.2.1]
        trivial
      · rw [hp.2.2.2.2.2.1, hp.2.2.2.2.2.2]
        trivial
      · rw [hp.2.1, hp.1]
        exact hcur
      · rw [hp.2.2.1, hp.1]
        exact hsel
  | @of_set_unmodified_snapshot s hr ih =>
    exact ih

/-! ### Grouping edits under one snapshot (claim C7 infrastructure) -/

theorem EditsOk_inv_singleton (c : List Char) (ed : SliceEdit)
    (h1 : ed.start ≤ ed.end_) (h2 : ed.end_ ≤ c.length)
    (h3 : sliceOf c ed.start ed.end_ ≠ ed.old_text) :
    EditsOk (applyEdit c ed) [invOf c ed] := by
  refine ⟨?_, ?_, ?_, trivial⟩
  · simp [invOf]
  · simp only [invOf]
    rw [applyEdit_length c ed h1 h2]
    omega
  · simp only [invOf]
    rw [sliceOf_applyEdit c ed (by omega)]
    exact fun hcon => h3 hcon.symm

theorem make_snapshot_spec {V : Type} (s : ViewState V) :
    ∃ rest : List UndoSnapshot,
      (ViewState.make_undo_snapshot s).undo_snapshots =
        { slice_edit_count := s.undo_slice_edits.length,
          cursor_pos := s.cursor_pos } :: rest ∧
      (ViewState.make_undo_snapshot s).document = s.document ∧
      (ViewState.make_undo_snapshot s).cursor_pos = s.cursor_pos ∧
      (ViewState.make_undo_snapshot s).selection_pos = s.selection_pos ∧
      (ViewState.make_undo_snapshot s).undo_slice_edits =
        s.undo_slice_edits := by
  unfold ViewState.make_undo_snapshot
  split
  · next last heq =>
    split
    · next hcond =>
      cases husn : s.undo_snapshots with
      | nil =>
        rw [husn] at heq
        cases heq
      | cons hd tail =>
        rw [husn] at heq
        injection heq with hhd
        subst hhd
        refine ⟨tail, ?_, rfl, rfl, rfl, rfl⟩
        obtain ⟨hc1, hc2⟩ := hcond
        congr 1
        cases hd
        dsimp only at hc1 hc2
        rw [← hc1, ← hc2]
    · next hcond =>
      have hp := make_push_fields s
      exact ⟨s.undo_snapshots, hp.2.2.2.2.1, hp.1, hp.2.1, hp.2.2.1,
        hp.2.2.2.1⟩
  · next heq =>
    have hp := make_push_fields s
    exact ⟨s.undo_snapshots, hp.2.2.2.2.1, hp.1, hp.2.1, hp.2.2.1,
      hp.2.2.2.1⟩

theorem insert_char_fields {V : Type} (sh : Shaper V) (s : ViewState V)
    (ch : Char) (hsel : s.selection_pos = s.cursor_pos)
    (hc : s.cursor_pos ≤ s.document.len) :
    (ViewState.insert_char sh s ch).document.toList =
      applyEdit s.document.toList
        { old_text := [ch], start := s.cursor_pos,
          end_ := s.cursor_pos } ∧
    (ViewState.insert_char sh s ch).undo_slice_edits =
      invOf s.document.toList
        { old_text := [ch], start := s.cursor_pos,
          end_ := s.cursor_pos } :: s.undo_slice_edits ∧
    (ViewState.insert_char sh s ch).cursor_pos = s.cursor_pos + 1 ∧
    (ViewState.insert_char sh s ch).selection_pos = s.cursor_pos + 1 ∧
    (ViewState.insert_char sh s ch).undo_snapshots = s.undo_snapshots ∧
    (ViewState.insert_char sh s ch).document.len = s.document.len + 1 := by
  have hslice : sliceOf s.document.toList s.cursor_pos s.cursor_pos ≠
      [ch] := by
    simp [sliceOf]
  have hrev := rsgeDoc_revert s.document
    { old_text := [ch], start := s.cursor_pos, end_ := s.cursor_pos }
    (le_refl _) hc hslice
  unfold ViewState.insert_char
  rw [if_neg (by omega)]
  dsimp only [ViewState.replace_slice, ViewState.replace_slice_and_get_edit,
    ViewState.refresh_anchor_x, ViewState.ensure_cursor_on_screen,
    ViewState.clear_selection]
  rw [hrev.1]
  dsimp only
  refine ⟨hrev.2, rfl, rfl, rfl, rfl, ?_⟩
  rw [LineGapBuffer.replace_slice_len s.document [ch] (le_refl _) hc]
  simp only [List.length_cons, List.length_nil]
  omega

/-! ### Claims C3, C7, C1 -/

/-- C3: for every engine state reached by a `load` followed by any sequence
of editing operations and `make_undo_snapshot()` calls, and every `n` not
exceeding the number of undo snapshots, applying `undo()` `n` times and then
`redo()` `n` times restores `content()` and `cursor_pos` to exactly their
values before the first `undo()`. -/
theorem claim_C3 {V : Type} (sh : Shaper V) (s : ViewState V)
    (hr : Reach sh s) {n : Nat} (hn : n ≤ s.undo_snapshots.length) :
    (redoN sh n (undoN sh n s)).content = s.content ∧
    (redoN sh n (undoN sh n s)).cursor_pos = s.cursor_pos := by
  have hI := reach_inv sh s hr
  have hv : Valid s := hI.1
  have hU := fullObs_undoN sh n s hv
  have hR := fullObs_redoN sh n (undoN sh n s) hU.2
  have hround : redoIter n (undoIter n (fullObs s)) = fullObs s :=
    redoIter_undoIter n (fullObs s) hv hn
  have hfull : fullObs (redoN sh n (undoN sh n s)) = fullObs s := by
    rw [hR.1, hU.1, hround]
  constructor
  · show (redoN sh n (undoN sh n s)).document.slice_string 0
      (redoN sh n (undoN sh n s)).document.len =
      s.document.slice_string 0 s.document.len
    rw [LineGapBuffer.slice_string_zero_len,
      LineGapBuffer.slice_string_zero_len]
    exact congrArg Obs.content hfull
  · exact congrArg Obs.cursor hfull

theorem claim_C3_witness :
    1 ≤ (ViewState.make_undo_snapshot
      (ViewState.load unitShaper state0 [] false)).undo_snapshots.length ∧
    ((redoN unitShaper 1 (undoN unitShaper 1 (ViewState.make_undo_snapshot
        (ViewState.load unitShaper state0 [] false)))).content =
      (ViewState.make_undo_snapshot
        (ViewState.load unitShaper state0 [] false)).content ∧
     (redoN unitShaper 1 (undoN unitShaper 1 (ViewState.make_undo_snapshot
        (ViewState.load unitShaper state0 [] false)))).cursor_pos =
      (ViewState.make_undo_snapshot
        (ViewState.load unitShaper state0 [] false)).cursor_pos) :=
  ⟨by decide, claim_C3 unitShaper _
    (Reach.of_make_undo_snapshot (Reach.of_load state0 [] false))
    (by decide)⟩

/-- C7: starting from any state with no active selection and the cursor in
range, one `make_undo_snapshot()` followed by three `insert_char` calls and
then one `undo()` restores `content()` and `cursor_pos` to their values at
the snapshot: the three insertions are reverted as a single undo step. -/
theorem claim_C7 {V : Type} (sh : Shaper V) (s : ViewState V)
    (c1 c2 c3 : Char) (hsel : s.selection_pos = s.cursor_pos)
    (hc : s.cursor_pos ≤ s.document.len) :
    (ViewState.undo sh (ViewState.insert_char sh (ViewState.insert_char sh
      (ViewState.insert_char sh (ViewState.make_undo_snapshot s) c1) c2)
      c3)).content = s.content ∧
    (ViewState.undo sh (ViewState.insert_char sh (ViewState.insert_char sh
      (ViewState.insert_char sh (ViewState.make_undo_snapshot s) c1) c2)
      c3)).cursor_pos = s.cursor_pos := by
  obtain ⟨rest, hm1, hm2, hm3, hm4, hm5⟩ := make_snapshot_spec s
  set m := ViewState.make_undo_snapshot s with hmdef
  have hmsel : m.selection_pos = m.cursor_pos := by
    rw [hm4, hm3, hsel]
  have hmc : m.cursor_pos ≤ m.document.len := by
    rw [hm3, hm2]
    exact hc
  have hi1 := insert_char_fields sh m c1 hmsel hmc
  set i1 := ViewState.insert_char sh m c1 with hi1def
  have hi1sel : i1.selection_pos = i1.cursor_pos := by
    rw [hi1.2.2.2.1, hi1.2.2.1]
  have hi1c : i1.cursor_pos ≤ i1.document.len := by
    rw [hi1.2.2.1, hi1.2.2.2.2.2]
    omega
  have hi2 := insert_char_fields sh i1 c2 hi1sel hi1c
  set i2 := ViewState.insert_char sh i1 c2 with hi2def
  have hi2sel : i2.selection_pos = i2.cursor_pos := by
    rw [hi2.2.2.2.1, hi2.2.2.1]
  have hi2c : i2.cursor_pos ≤ i2.document.len := by
    rw [hi2.2.2.1, hi2.2.2.2.2.2]
    omega
  have hi3 := insert_char_fields sh i2 c3 hi2sel hi2c
  set i3 := ViewState.insert_char sh i2 c3 with hi3def
  have hO1 : m.document.toList.length = m.document.len :=
    LineGapBuffer.length_toList _
  have hO2 : i1.document.toList.length = i1.document.len :=
    LineGapBuffer.length_toList _
  have hO3 : i2.document.toList.length = i2.document.len :=
    LineGapBuffer.length_toList _
  have hb1 : ({ old_text := [c1], start := m.cursor_pos, end_ := m.cursor_pos } : SliceEdit).end_ ≤
      m.document.toList.length := by
    dsimp only
    omega
  have hb2 : ({ old_text := [c2], start := i1.cursor_pos, end_ := i1.cursor_pos } : SliceEdit).end_ ≤
      i1.document.toList.length := by
    dsimp only
    omega
  have hb3 : ({ old_text := [c3], start := i2.cursor_pos, end_ := i2.cursor_pos } : SliceEdit).end_ ≤
      i2.document.toList.length := by
    dsimp only
    omega
  have hs1 := EditsOk_inv_singleton m.document.toList
    { old_text := [c1], start := m.cursor_pos, end_ := m.cursor_pos }
    (le_refl _) hb1 (by simp [sliceOf])
  have hs2 := EditsOk_inv_singleton i1.document.toList
    { old_text := [c2], start := i1.cursor_pos, end_ := i1.cursor_pos }
    (le_refl _) hb2 (by simp [sliceOf])
  have hs3 := EditsOk_inv_singleton i2.document.toList
    { old_text := [c3], start := i2.cursor_pos, end_ := i2.cursor_pos }
    (le_refl _) hb3 (by simp [sliceOf])
  have hai3 : applyEdit i3.document.toList
      (invOf i2.document.toList { old_text := [c3], start := i2.cursor_pos, end_ := i2.cursor_pos }) = i2.document.toList := by
    rw [hi3.1]
    exact applyEdit_invOf i2.document.toList _ (le_refl _) hb3
  have hai2 : applyEdit i2.document.toList
      (invOf i1.document.toList { old_text := [c2], start := i1.cursor_pos, end_ := i1.cursor_pos }) = i1.document.toList := by
    rw [hi2.1]
    exact applyEdit_invOf i1.document.toList _ (le_refl _) hb2
  have hai1 : applyEdit i1.document.toList
      (invOf m.document.toList { old_text := [c1], start := m.cursor_pos, end_ := m.cursor_pos }) = m.document.toList := by
    rw [hi1.1]
    exact applyEdit_invOf m.document.toList _ (le_refl _) hb1
  have hsn : i3.undo_snapshots =
      { slice_edit_count := s.undo_slice_edits.length,
        cursor_pos := s.cursor_pos } :: rest := by
    rw [hi3.2.2.2.2.1, hi2.2.2.2.2.1, hi1.2.2.2.2.1, hm1]
  have hsplit : i3.undo_slice_edits =
      [invOf i2.document.toList { old_text := [c3], start := i2.cursor_pos, end_ := i2.cursor_pos },
       invOf i1.document.toList { old_text := [c2], start := i1.cursor_pos, end_ := i1.cursor_pos },
       invOf m.document.toList { old_text := [c1], start := m.cursor_pos, end_ := m.cursor_pos }] ++ s.undo_slice_edits := by
    rw [hi3.2.1, hi2.2.1, hi1.2.1, hm5]
    rfl
  have hok : EditsOk i3.document.toList
      [invOf i2.document.toList { old_text := [c3], start := i2.cursor_pos, end_ := i2.cursor_pos },
       invOf i1.document.toList { old_text := [c2], start := i1.cursor_pos, end_ := i1.cursor_pos },
       invOf m.document.toList { old_text := [c1], start := m.cursor_pos, end_ := m.cursor_pos }] := by
    rw [hi3.1]
    obtain ⟨hA3, hB3, hC3, -⟩ := hs3
    refine ⟨hA3, hB3, hC3, ?_⟩
    rw [applyEdit_invOf i2.document.toList _ (le_refl _) hb3]
    rw [hi2.1]
    obtain ⟨hA2, hB2, hC2, -⟩ := hs2
    refine ⟨hA2, hB2, hC2, ?_⟩
    rw [applyEdit_invOf i1.document.toList _ (le_refl _) hb2]
    rw [hi1.1]
    obtain ⟨hA1, hB1, hC1, -⟩ := hs1
    exact ⟨hA1, hB1, hC1, trivial⟩
  have hun := undo_fullObs sh i3
    { slice_edit_count := s.undo_slice_edits.length,
      cursor_pos := s.cursor_pos } rest
    [invOf i2.document.toList { old_text := [c3], start := i2.cursor_pos, end_ := i2.cursor_pos },
     invOf i1.document.toList { old_text := [c2], start := i1.cursor_pos, end_ := i1.cursor_pos },
     invOf m.document.toList { old_text := [c1], start := m.cursor_pos, end_ := m.cursor_pos }]
    s.undo_slice_edits hsn hsplit rfl hok
  have hrevall : revertList i3.document.toList
      [invOf i2.document.toList { old_text := [c3], start := i2.cursor_pos, end_ := i2.cursor_pos },
       invOf i1.document.toList { old_text := [c2], start := i1.cursor_pos, end_ := i1.cursor_pos },
       invOf m.document.toList { old_text := [c1], start := m.cursor_pos, end_ := m.cursor_pos }] = s.document.toList := by
    show applyEdit (applyEdit (applyEdit i3.document.toList
      (invOf i2.document.toList { old_text := [c3], start := i2.cursor_pos, end_ := i2.cursor_pos }))
      (invOf i1.document.toList { old_text := [c2], start := i1.cursor_pos, end_ := i1.cursor_pos }))
      (invOf m.document.toList { old_text := [c1], start := m.cursor_pos, end_ := m.cursor_pos }) = s.document.toList
    rw [hai3, hai2, hai1, hm2]
  have hcontent : (ViewState.undo sh i3).document.toList =
      s.document.toList := by
    have h := congrArg Obs.content hun
    rw [hrevall] at h
    exact h
  have hcur : (ViewState.undo sh i3).cursor_pos = s.cursor_pos :=
    congrArg Obs.cursor hun
  constructor
  · show (ViewState.undo sh i3).document.slice_string 0
        (ViewState.undo sh i3).document.len =
      s.document.slice_string 0 s.document.len
    rw [LineGapBuffer.slice_string_zero_len,
      LineGapBuffer.slice_string_zero_len]
    exact hcontent
  · exact hcur

theorem claim_C7_witness :
    (stateC.selection_pos = stateC.cursor_pos ∧
     stateC.cursor_pos ≤ stateC.document.len) ∧
    ((ViewState.undo unitShaper (ViewState.insert_char unitShaper
        (ViewState.insert_char unitShaper (ViewState.insert_char unitShaper
          (ViewState.make_undo_snapshot stateC) 'x') 'y') 'z')).content =
      stateC.content ∧
     (ViewState.undo unitShaper (ViewState.insert_char unitShaper
        (ViewState.insert_char unitShaper (ViewState.insert_char unitShaper
          (ViewState.make_undo_snapshot stateC) 'x') 'y') 'z')).cursor_pos =
      stateC.cursor_pos) :=
  ⟨⟨rfl, by decide⟩, claim_C7 unitShaper stateC 'x' 'y' 'z' rfl (by decide)⟩

/-! ### Claim C1: the unmodified mark is lost on push -/

theorem undo_unmodified {V : Type} (sh : Shaper V) (s : ViewState V) :
    (ViewState.undo sh s).unmodified_snapshot = s.unmodified_snapshot := by
  unfold ViewState.undo
  split
  · rfl
  · rfl

theorem undoN_unmodified {V : Type} (sh : Shaper V) (k : Nat) :
    ∀ s : ViewState V, (undoN sh k s).unmodified_snapshot =
      s.unmodified_snapshot := by
  induction k with
  | zero => intro s; rfl
  | succ k ih =>
    intro s
    show (undoN sh k (ViewState.undo sh s)).unmodified_snapshot = _
    rw [ih (ViewState.undo sh s), undo_unmodified]

/-- C1 (refutation): whenever `unmodified_snapshot = some n` with `n > 0` and
`make_undo_snapshot()` actually pushes, the push clears
`unmodified_snapshot` (the source compares `n` against the just-cleared
`redo_snapshots` instead of the undo stack), so `modified()` stays `true`
after every number of subsequent `undo()` calls — including the one that
returns the undo stack to the marked depth, contradicting the claim. -/
theorem claim_C1 {V : Type} (sh : Shaper V) (s : ViewState V) {n : Nat}
    (hn : s.unmodified_snapshot = some n) (h0 : 0 < n)
    (hpush : ∀ last, s.undo_snapshots.head? = some last →
      ¬(last.cursor_pos = s.cursor_pos ∧
        last.slice_edit_count = s.undo_slice_edits.length)) :
    ∀ k : Nat,
      (undoN sh k (ViewState.make_undo_snapshot s)).modified = true := by
  have hpf : (ViewState.make_undo_snapshot_push s).unmodified_snapshot =
      none := by
    unfold ViewState.make_undo_snapshot_push
    dsimp only
    rw [hn]
    dsimp only
    rw [if_pos (by simp only [List.length_nil]; exact h0)]
  have hmk : (ViewState.make_undo_snapshot s).unmodified_snapshot =
      none := by
    unfold ViewState.make_undo_snapshot
    split
    · next last heq =>
      split
      · next hcond => exact absurd hcond (hpush last heq)
      · exact hpf
    · exact hpf
  intro k
  unfold ViewState.modified
  rw [undoN_unmodified, hmk]
  rfl

theorem claim_C1_witness :
    stateB.unmodified_snapshot = some 1 ∧ 0 < 1 ∧
    (undoN unitShaper 1
      (ViewState.make_undo_snapshot stateB)).modified = true :=
  ⟨rfl, by decide, claim_C1 unitShaper stateB rfl (by decide)
    (by
      intro last hlast
      have hsome : some ({ slice_edit_count := 0, cursor_pos := 0 } :
          UndoSnapshot) = some last := hlast
      injection hsome with hsome
      subst hsome
      decide) 1⟩

end AnEditor
